import Mathlib

/-!
# Verification of the `extended-env` Scaleway secret-mapping subsystem

Shallow embedding of `src/modules/scaleway_secrets.ts` and
`src/modules/base_module.ts`: the secret decoder (`parseJson`), the shape
validator (`verify`), the field mapper (`mapSecret`), the handler factory
(`database` / `credentials` / `kv` / `ssh`, `createHandler`) and the
process-wide variable store (`process.env` with `BaseModule.set` /
`BaseModule.exists`).

Conventions of the embedding:
* Raw text payloads are `List Char`; an absent (`undefined`) payload is
  `Option.none`.
* `JSON.parse` / `JSON.stringify` are modelled by an executable parser
  (`parseV`) and printer (`printJ`) over a structured `Json` tree.  JSON
  numbers in the source are IEEE-754 doubles; the model covers only their
  integer fragment, so statements about numbers carry a `smallNumsJ`
  hypothesis restricting them to the exact-integer double range (magnitude
  below `2 ^ 53`) — outside it the source diverges from any exact model
  (`1e999` overflows to `Infinity`, which stringifies as `null`).  The
  secret shapes themselves only ever contain strings.  JavaScript object
  insertion-order semantics (duplicate keys keep their first position and
  take the last value) are modelled by `insertF`.
* `process.env` is modelled as an association list from variable names to
  the written values (JavaScript coerces values to strings on assignment;
  the coercion is injective on the string payload fields the claims are
  about, so we store the `Json` value itself).
* Thrown `TypeError`s are modelled by the `SecretErr` error taxonomy.
-/

/-- The double-quote character `"`. -/
def dquoteC : Char := Char.ofNat 34

/-- The single-quote character. -/
def squoteC : Char := Char.ofNat 39

/-- The backslash character. -/
def bslashC : Char := Char.ofNat 92

/-- Whitespace accepted by `JSON.parse` between tokens: space, tab, LF, CR. -/
def isJsonWs (c : Char) : Bool :=
  c = ' ' || c.toNat = 9 || c.toNat = 10 || c.toNat = 13

/-- Whitespace removed by JavaScript `String.prototype.trim` (the ASCII
fragment: space, tab, LF, VT, FF, CR; no payload in scope uses the Unicode
space characters). -/
def isTrimWs (c : Char) : Bool :=
  c = ' ' || (9 ≤ c.toNat && c.toNat ≤ 13)

/-- Drop leading JSON whitespace. -/
def skipWs : List Char → List Char
  | [] => []
  | c :: cs => if isJsonWs c then skipWs cs else c :: cs

/-- `rawJson.trim()`: drop `isTrimWs` characters from both ends. -/
def jsTrim (cs : List Char) : List Char :=
  ((cs.dropWhile isTrimWs).reverse.dropWhile isTrimWs).reverse

/-- `.replaceAll(/\\/g, '')`: remove every backslash character. -/
def stripBackslashes (cs : List Char) : List Char :=
  cs.filter (fun c => c ≠ bslashC)

/-- The quote-unwrapping step of `ScalewaySecrets.parseJson`: if the text
starts and ends with `"` , or starts and ends with `'`, remove the first and
last character (JavaScript `slice(1, -1)`); otherwise leave it unchanged. -/
def stripQuotes (cs : List Char) : List Char :=
  if (cs.head? = some dquoteC ∧ cs.getLast? = some dquoteC) ∨
     (cs.head? = some squoteC ∧ cs.getLast? = some squoteC) then
    (cs.drop 1).dropLast
  else
    cs

/-- The whole text preprocessing of `ScalewaySecrets.parseJson` before
`JSON.parse`: trim, strip all backslashes, unwrap one quote pair. -/
def preprocess (cs : List Char) : List Char :=
  stripQuotes (stripBackslashes (jsTrim cs))

mutual

/-- A structured JSON value, as produced by `JSON.parse`.

Numbers: the source represents numbers as IEEE-754 doubles, where a literal
such as `1e999` overflows to `Infinity` (which `JSON.stringify` then prints
as `null`) and non-integer literals are rounded.  This embedding models only
the integer fragment of JSON numbers, as exact integers; float semantics are
outside it.  A statement about numbers is therefore faithful only when its
hypotheses confine the numbers to the range where doubles are exact integers
(magnitude below `2 ^ 53`, see `smallNumsJ`); within that range a double is
the integer itself and `JSON.stringify` prints it in plain decimal.  The
secret payloads in scope only contain strings. -/
inductive Json where
  | null : Json
  | bool (b : Bool) : Json
  | num (n : Int) : Json
  | str (s : String) : Json
  | arr (xs : JsonList) : Json
  | obj (fs : JsonFields) : Json
  deriving DecidableEq, Repr

/-- The elements of a JSON array. -/
inductive JsonList where
  | nil : JsonList
  | cons (hd : Json) (tl : JsonList) : JsonList
  deriving DecidableEq, Repr

/-- The fields of a JSON object, in JavaScript insertion order. -/
inductive JsonFields where
  | nil : JsonFields
  | cons (k : String) (v : Json) (tl : JsonFields) : JsonFields
  deriving DecidableEq, Repr

end

/-- First value bound to key `k`, scanning fields in order. -/
def lookupF : JsonFields → String → Option Json
  | .nil, _ => none
  | .cons k' v t, k => if k' = k then some v else lookupF t k

/-- Whether an object has an own property `k`. -/
def containsF (fs : JsonFields) (k : String) : Bool :=
  (lookupF fs k).isSome

/-- JavaScript property assignment `obj[k] = v`: if `k` is already present
its value is updated in place (the key keeps its original position),
otherwise the new key is appended at the end. -/
def insertF : JsonFields → String → Json → JsonFields
  | .nil, k, v => .cons k v .nil
  | .cons k' v' t, k, v =>
      if k' = k then .cons k v t else .cons k' v' (insertF t k v)

/-- The field values of an object, in field order (`Object.values`). -/
def valuesF : JsonFields → List Json
  | .nil => []
  | .cons _ v t => v :: valuesF t

/-- The elements of a JSON array as a Lean list. -/
def JsonList.toList : JsonList → List Json
  | .nil => []
  | .cons h t => h :: JsonList.toList t

/-- The fields of a JSON object as a Lean association list. -/
def fieldsToList : JsonFields → List (String × Json)
  | .nil => []
  | .cons k v t => (k, v) :: fieldsToList t

/-- Rebuild `JsonFields` from an association list. -/
def ofListF : List (String × Json) → JsonFields
  | [] => .nil
  | (k, v) :: t => .cons k v (ofListF t)

/-- The decimal digit character for `d < 10`. -/
def digitC (d : Nat) : Char := Char.ofNat (48 + d)

/-- Decimal digit test (character codes 48–57). -/
def isDigitC (c : Char) : Bool := 48 ≤ c.toNat && c.toNat ≤ 57

/-- Decimal digits of a natural number, most significant first
(the integer branch of JavaScript number-to-string). -/
def natToChars (n : Nat) : List Char :=
  if _h : n < 10 then [digitC n]
  else natToChars (n / 10) ++ [digitC (n % 10)]
decreasing_by exact Nat.div_lt_self (by omega) (by omega)

/-- Decimal notation of an integer (`JSON.stringify` on our integer-valued
numbers). -/
def intToChars (n : Int) : List Char :=
  if n < 0 then '-' :: natToChars n.natAbs else natToChars n.natAbs

mutual

/-- `JSON.stringify` of a structured value, as a character list.  Escaping
inside strings is never needed for values this system produces (the decoder
strips every backslash before parsing, so parsed strings contain no quote,
backslash or control character); `printJ` therefore emits string contents
verbatim, which agrees with `JSON.stringify` on all such values. -/
def printJ : Json → List Char
  | .null => "null".data
  | .bool true => "true".data
  | .bool false => "false".data
  | .num n => intToChars n
  | .str s => dquoteC :: s.data ++ [dquoteC]
  | .arr .nil => ['[', ']']
  | .arr (.cons h t) => '[' :: (printJ h ++ printL t ++ [']'])
  | .obj .nil => ['{', '}']
  | .obj (.cons k v t) =>
      '{' :: (dquoteC :: k.data ++ dquoteC :: ':' :: printJ v ++ printF t ++ ['}'])

/-- Print `,elem` for each remaining array element. -/
def printL : JsonList → List Char
  | .nil => []
  | .cons h t => ',' :: (printJ h ++ printL t)

/-- Print `,"key":value` for each remaining object field. -/
def printF : JsonFields → List Char
  | .nil => []
  | .cons k v t => ',' :: (dquoteC :: k.data ++ dquoteC :: ':' :: printJ v ++ printF t)

end

/-- Consume an expected literal character sequence. -/
def eatLit : List Char → List Char → Option (List Char)
  | [], cs => some cs
  | l :: ls, c :: cs => if c = l then eatLit ls cs else none
  | _ :: _, [] => none

/-- Read the body of a JSON string literal up to the closing quote.  Fails on
a backslash (escape sequences never reach the parser: the decoder has already
removed every backslash) and on raw control characters, as `JSON.parse`
does. -/
def parseStrChars : List Char → Option (List Char × List Char)
  | [] => none
  | c :: cs =>
      if c = dquoteC then some ([], cs)
      else if c = bslashC || c.toNat < 32 then none
      else (parseStrChars cs).map (fun p => (c :: p.1, p.2))

/-- Value of a digit list read most-significant-first. -/
def chainVal (ds : List Char) : Nat :=
  ds.foldl (fun a c => a * 10 + (c.toNat - 48)) 0

/-- Read an unsigned JSON integer: either a single `0`, or a nonzero digit
followed by further digits (JSON forbids redundant leading zeros).

The fraction and exponent parts of the JSON number grammar are not modelled:
their values are IEEE-754 doubles in the source (`1.5` is a double, `1e999`
overflows to `Infinity`), which the integer-only `Json.num` cannot carry.
Payloads containing such literals are outside the model; see the note on
`Json`. -/
def parseUNum : List Char → Option (Nat × List Char)
  | [] => none
  | c :: cs =>
      if c = '0' then some (0, cs)
      else if isDigitC c then
        some (chainVal ((c :: cs).takeWhile isDigitC), (c :: cs).dropWhile isDigitC)
      else none

/-- Read a JSON integer with optional leading minus sign. -/
def parseNum : List Char → Option (Json × List Char)
  | [] => none
  | c :: r =>
      if c = '-' then (parseUNum r).map (fun p => (.num (-(p.1 : Int)), p.2))
      else (parseUNum (c :: r)).map (fun p => (.num (p.1 : Int), p.2))

mutual

/-- Fuel-indexed model of `JSON.parse` reading one value: skip whitespace,
then dispatch on the first character (`null` / `true` / `false` literals,
string, array, object, number). -/
def parseV : Nat → List Char → Option (Json × List Char)
  | 0, _ => none
  | f + 1, cs =>
      match skipWs cs with
      | [] => none
      | c :: r =>
          if c = 'n' then (eatLit ['u', 'l', 'l'] r).map (fun rr => (.null, rr))
          else if c = 't' then (eatLit ['r', 'u', 'e'] r).map (fun rr => (.bool true, rr))
          else if c = 'f' then (eatLit ['a', 'l', 's', 'e'] r).map (fun rr => (.bool false, rr))
          else if c = dquoteC then
            (parseStrChars r).map (fun p => (.str (String.mk p.1), p.2))
          else if c = '[' then
            if (skipWs r).head? = some ']' then some (.arr .nil, (skipWs r).tail)
            else (parseArrTail f (skipWs r)).map (fun p => (.arr p.1, p.2))
          else if c = '{' then
            if (skipWs r).head? = some '}' then some (.obj .nil, (skipWs r).tail)
            else (parseObjTail f .nil (skipWs r)).map (fun p => (.obj p.1, p.2))
          else if c = '-' || isDigitC c then parseNum (c :: r)
          else none

/-- Read the elements of a non-empty array, starting at the first element. -/
def parseArrTail : Nat → List Char → Option (JsonList × List Char)
  | 0, _ => none
  | f + 1, cs =>
      match parseV f cs with
      | none => none
      | some (v, r) =>
          if (skipWs r).head? = some ',' then
            (parseArrTail f (skipWs r).tail).map (fun p => (.cons v p.1, p.2))
          else if (skipWs r).head? = some ']' then some (.cons v .nil, (skipWs r).tail)
          else none

/-- Read the fields of a non-empty object, starting at the first key.
Fields are accumulated with `insertF`, reproducing the JavaScript handling of
duplicate keys (first position, last value). -/
def parseObjTail : Nat → JsonFields → List Char → Option (JsonFields × List Char)
  | 0, _, _ => none
  | f + 1, acc, cs =>
      match skipWs cs with
      | [] => none
      | c :: r =>
          if c = dquoteC then
            match parseStrChars r with
            | none => none
            | some (kcs, r1) =>
                if (skipWs r1).head? = some ':' then
                  match parseV f (skipWs r1).tail with
                  | none => none
                  | some (v, r3) =>
                      if (skipWs r3).head? = some ',' then
                        parseObjTail f (insertF acc (String.mk kcs) v) (skipWs r3).tail
                      else if (skipWs r3).head? = some '}' then
                        some (insertF acc (String.mk kcs) v, (skipWs r3).tail)
                      else none
                else none
          else none

end

/-- Model of `JSON.parse` on a whole text: read one value with enough fuel,
then require only trailing whitespace. -/
def jsonParse (cs : List Char) : Option Json :=
  match parseV (cs.length + 1) cs with
  | some (v, r) => if skipWs r = [] then some v else none
  | none => none

/-- The closed set of secret kinds (`SecretType` in `types.ts`). -/
inductive SecretType where
  | basic_credentials
  | database_credentials
  | key_value
  | ssh_key
  deriving DecidableEq, Repr

/-- The error taxonomy of the subsystem (each is a thrown `TypeError` in the
source; constructors carry the data interpolated into the message). -/
inductive SecretErr where
  | missingPayload (name : String)
  | invalidJson (name : String)
  | invalidSecretShape (t : SecretType)
  | missingSecretField (field : String) (t : SecretType) (envVar : String)
  | nullSecretField (field : String) (t : SecretType) (envVar : String)
  deriving DecidableEq, Repr

/-- A `SecretMapping<T>`: the secret kind plus the field-to-variable-name
mapping, in JavaScript insertion order. -/
structure SecretMapping where
  type : SecretType
  envMapping : List (String × String)
  deriving DecidableEq, Repr

/-- JavaScript object assignment on a generic association list: update the
value in place if the key exists, else append. -/
def insertKV {α : Type} (l : List (String × α)) (k : String) (v : α) :
    List (String × α) :=
  match l with
  | [] => [(k, v)]
  | (k', v') :: rest => if k' = k then (k, v) :: rest else (k', v') :: insertKV rest k v

/-- First value bound to `k` in an association list. -/
def lookupKV {α : Type} : List (String × α) → String → Option α
  | [], _ => none
  | (k', v) :: rest, k => if k' = k then some v else lookupKV rest k

/-- Key-presence test on an association list. -/
def containsKV {α : Type} (l : List (String × α)) (k : String) : Bool :=
  (lookupKV l k).isSome

/-- The object spread `{ ...base, ...overrides }`: every override key updates
in place or appends, left to right. -/
def jsMerge (base overrides : List (String × String)) : List (String × String) :=
  overrides.foldl (fun acc p => insertKV acc p.1 p.2) base

/-- JavaScript property read `value[key]` restricted to own properties:
field lookup on objects, canonical-index lookup on arrays, nothing on
primitives.  (The field names this system reads never collide with
`Object.prototype` members, so own-property lookup is exact.) -/
def jsGet (v : Json) (k : String) : Option Json :=
  match v with
  | .obj fs => lookupF fs k
  | .arr xs => arrIndex xs 0 k
  | _ => none
where
  /-- Array element whose canonical decimal index string equals `k`. -/
  arrIndex : JsonList → Nat → String → Option Json
    | .nil, _, _ => none
    | .cons h t, i, k => if String.mk (natToChars i) = k then some h else arrIndex t (i + 1) k

/-- `Object.prototype.hasOwnProperty.call(value, key)` for parsed JSON
values. -/
def hasOwnProp (v : Json) (k : String) : Bool :=
  (jsGet v k).isSome

/-- The value of a JSON field, defaulting to `null` (total helper used only
to state theorems). -/
def propValD (v : Json) (k : String) : Json :=
  (jsGet v k).getD .null

/-- Whether an `Option Json` holds a string (`typeof x === 'string'`,
where a missing property reads as `undefined`). -/
def isStrOpt : Option Json → Bool
  | some (.str _) => true
  | _ => false

/-- `typeof v === 'object'` for parsed JSON values: true exactly for
objects, arrays and `null`. -/
def typeofIsObject : Json → Bool
  | .obj _ => true
  | .arr _ => true
  | .null => true
  | _ => false

/-- `Object.values(v)`: field values of an object, elements of an array. -/
def jsValues : Json → List Json
  | .obj fs => valuesF fs
  | .arr xs => xs.toList
  | _ => []

/-- `Json.str` test on a value. -/
def isStrVal : Json → Bool
  | .str _ => true
  | _ => false

/-- `ScalewaySecrets.verify`: the shape validator.  Mirrors the source
switch: reject non-objects and `null`, then check the kind's required fields
(`basic_credentials`, `database_credentials`, `ssh_key`) or that every value
is a string (`key_value`).  The closed `SecretType` makes the source's
`default: return false` branch unreachable. -/
def verify (secretValue : Json) (type : SecretType) : Bool :=
  if !typeofIsObject secretValue || secretValue = .null then false
  else
    match type with
    | .basic_credentials =>
        isStrOpt (jsGet secretValue "username") &&
        isStrOpt (jsGet secretValue "password")
    | .database_credentials =>
        isStrOpt (jsGet secretValue "engine") &&
        isStrOpt (jsGet secretValue "username") &&
        isStrOpt (jsGet secretValue "password") &&
        isStrOpt (jsGet secretValue "host") &&
        isStrOpt (jsGet secretValue "dbname") &&
        isStrOpt (jsGet secretValue "port")
    | .key_value => (jsValues secretValue).all isStrVal
    | .ssh_key => isStrOpt (jsGet secretValue "ssh_private_key")

/-- The loop body of `ScalewaySecrets.mapSecret`: walk the mapping entries in
order, and for each `(key, envVar)` pair either record the write
`envVar := secretValue[key]` or stop with the first error (absent own
property, or a `null`/`undefined` value).  Returns the writes performed
before the stop, in order. -/
def projectFields (secretValue : Json) (t : SecretType) :
    List (String × String) → List (String × Json) × Option SecretErr
  | [] => ([], none)
  | (key, envVar) :: rest =>
      if hasOwnProp secretValue key then
        match jsGet secretValue key with
        | some .null => ([], some (.nullSecretField key t envVar))
        | none => ([], some (.nullSecretField key t envVar))
        | some value =>
            let r := projectFields secretValue t rest
            ((envVar, value) :: r.1, r.2)
      else ([], some (.missingSecretField key t envVar))

/-- Apply a list of writes to the variable store in order
(`BaseModule.set`, i.e. `process.env[key] = value`). -/
def applyWrites (env : List (String × Json)) (ws : List (String × Json)) :
    List (String × Json) :=
  ws.foldl (fun e p => insertKV e p.1 p.2) env

/-- The mutable state the subsystem touches: the process-wide variable store
(`process.env`) and the decoded-secret cache (`ScalewaySecrets.secrets`). -/
structure EnvState where
  env : List (String × Json)
  secrets : List (String × Json)
  deriving DecidableEq, Repr

/-- `BaseModule.exists`: `process.env[key] !== undefined`. -/
def existsEnv (st : EnvState) (key : String) : Bool :=
  containsKV st.env key

/-- `ScalewaySecrets.parseJson`: the secret decoder.  Fails on an absent or
empty payload, preprocesses the text (trim, backslash removal, single quote
unwrap), then runs `JSON.parse`. -/
def parseJson (name : String) (rawJson : Option (List Char)) :
    Except SecretErr Json :=
  match rawJson with
  | none => .error (.missingPayload name)
  | some cs =>
      if cs = [] then .error (.missingPayload name)
      else
        match jsonParse (preprocess cs) with
        | some v => .ok v
        | none => .error (.invalidJson name)

/-- `ScalewaySecrets.mapSecret`: validate the decoded value against the
kind, then project the mapped fields into the variable store; the state is
returned together with the error, if any (writes made before a mid-loop
failure are kept). -/
def mapSecret (st : EnvState) (secretValue : Json) (mapping : SecretMapping) :
    EnvState × Option SecretErr :=
  if !verify secretValue mapping.type then
    (st, some (.invalidSecretShape mapping.type))
  else
    let r := projectFields secretValue mapping.type mapping.envMapping
    ({ st with env := applyWrites st.env r.1 }, r.2)

/-- The plain handler produced by `ScalewaySecrets.createHandler`: decode the
payload, record it in the decoded-secret cache under `name`, then validate
and project. -/
def requiredHandler (mapping : SecretMapping) (name : String)
    (rawJson : Option (List Char)) (st : EnvState) : EnvState × Option SecretErr :=
  match parseJson name rawJson with
  | .error e => (st, some e)
  | .ok parsed =>
      mapSecret { st with secrets := insertKV st.secrets name parsed } parsed mapping

/-- The `.optional` handler: return silently when no payload is provided,
otherwise behave exactly as the plain handler. -/
def optionalHandler (mapping : SecretMapping) (name : String)
    (rawJson : Option (List Char)) (st : EnvState) : EnvState × Option SecretErr :=
  match rawJson with
  | none => (st, none)
  | some cs => if cs = [] then (st, none) else requiredHandler mapping name (some cs) st

/-- Default field mapping of `ScalewaySecrets.database`. -/
def databaseDefaults : List (String × String) :=
  [("engine", "DB_CONNECTION"), ("host", "DB_HOST"), ("port", "DB_PORT"),
   ("username", "DB_USER"), ("password", "DB_PASSWORD"), ("dbname", "DB_DATABASE")]

/-- `ScalewaySecrets.database`: handler mapping for `database_credentials`,
defaults spread-merged with the caller's overrides. -/
def database (mapping : List (String × String)) : SecretMapping :=
  ⟨.database_credentials, jsMerge databaseDefaults mapping⟩

/-- `ScalewaySecrets.credentials`: handler mapping for `basic_credentials`. -/
def credentials (mapping : List (String × String)) : SecretMapping :=
  ⟨.basic_credentials, jsMerge [("username", "USERNAME"), ("password", "PASSWORD")] mapping⟩

/-- `ScalewaySecrets.kv`: handler mapping for `key_value`; the caller's
mapping is used as-is (no defaults). -/
def kv (mapping : List (String × String)) : SecretMapping :=
  ⟨.key_value, mapping⟩

/-- `ScalewaySecrets.ssh`: handler mapping for `ssh_key`; the caller's
mapping is used as-is (no defaults). -/
def ssh (mapping : List (String × String)) : SecretMapping :=
  ⟨.ssh_key, mapping⟩

/-- The required fields of each kind, per the shape table (§3): the fields
`verify` checks for the three fixed-shape kinds. -/
def requiredFields : SecretType → List String
  | .basic_credentials => ["username", "password"]
  | .database_credentials => ["engine", "username", "password", "host", "dbname", "port"]
  | .key_value => []
  | .ssh_key => ["ssh_private_key"]

/-- A mapping entry `(field, envVar)` succeeds in the `mapSecret` loop iff
the field is an own property whose value is neither `undefined` nor
`null`. -/
def fieldOk (v : Json) (p : String × String) : Bool :=
  match jsGet v p.1 with
  | some .null => false
  | none => false
  | some _ => true

/-- A character that `JSON.stringify` emits verbatim inside a string
literal and that the string reader accepts raw: not a quote, not a
backslash, not a control character. -/
def cleanChar (c : Char) : Bool :=
  c ≠ dquoteC && c ≠ bslashC && 32 ≤ c.toNat

mutual

/-- Values producible by the decoder: every string is made of clean
characters and every object has distinct keys. -/
def cleanJ : Json → Bool
  | .null => true
  | .bool _ => true
  | .num _ => true
  | .str s => s.data.all cleanChar
  | .arr xs => cleanL xs
  | .obj fs => cleanF fs

/-- `cleanJ` on every array element. -/
def cleanL : JsonList → Bool
  | .nil => true
  | .cons h t => cleanJ h && cleanL t

/-- `cleanJ` on every field value, clean field keys, no duplicate keys. -/
def cleanF : JsonFields → Bool
  | .nil => true
  | .cons k v t => k.data.all cleanChar && cleanJ v && !containsF t k && cleanF t

end

mutual

/-- Every number occurring in the value is an integer of magnitude below
`2 ^ 53`: the range in which the IEEE-754 doubles of the source are exact
integers and `JSON.stringify` prints them in plain decimal.  Outside it the
integer-only number model diverges from the source (see `Json`): a literal
such as `1e999` overflows to `Infinity`, which `JSON.stringify` prints as
`null`. -/
def smallNumsJ : Json → Bool
  | .num n => n.natAbs < 2 ^ 53
  | .arr xs => smallNumsL xs
  | .obj fs => smallNumsF fs
  | _ => true

/-- `smallNumsJ` on every array element. -/
def smallNumsL : JsonList → Bool
  | .nil => true
  | .cons h t => smallNumsJ h && smallNumsL t

/-- `smallNumsJ` on every field value. -/
def smallNumsF : JsonFields → Bool
  | .nil => true
  | .cons _ v t => smallNumsJ v && smallNumsF t

end

/-- A fresh state: empty variable store, empty decoded-secret cache. -/
def emptyState : EnvState := ⟨[], []⟩

/-- Wrap a string in double quotes, as characters. -/
def dqWrap (s : String) : List Char := dquoteC :: s.data ++ [dquoteC]

/-- The raw payload text `{"username":"a","password":"b"}`. -/
def basicPayloadChars : List Char :=
  '{' :: dqWrap "username" ++ ':' :: dqWrap "a" ++ ',' :: dqWrap "password" ++ ':' :: dqWrap "b" ++ ['}']

/-- A `database_credentials` payload missing the `dbname` field. -/
def dbNoDbnameChars : List Char :=
  '{' :: dqWrap "engine" ++ ':' :: dqWrap "postgres" ++ ',' :: dqWrap "username" ++ ':' :: dqWrap "u"
  ++ ',' :: dqWrap "password" ++ ':' :: dqWrap "p" ++ ',' :: dqWrap "host" ++ ':' :: dqWrap "h"
  ++ ',' :: dqWrap "port" ++ ':' :: dqWrap "5432" ++ ['}']

/-- The raw payload text `{"ssh_private_key":"KEY"}`. -/
def sshPayloadChars : List Char :=
  '{' :: dqWrap "ssh_private_key" ++ ':' :: dqWrap "KEY" ++ ['}']

/-- The raw payload text `'"true"'`: the JSON string `"true"` wrapped in one
layer of single quotes. -/
def quotedTrueChars : List Char := squoteC :: dqWrap "true" ++ [squoteC]

/-- The decoded value `{ssh_private_key: "KEY"}`. -/
def sshJson : Json := .obj (.cons "ssh_private_key" (.str "KEY") .nil)

/-- The decoded value `{username: "a", password: "b"}`. -/
def basicJson : Json :=
  .obj (.cons "username" (.str "a") (.cons "password" (.str "b") .nil))

/-- A well-formed decoded `database_credentials` value. -/
def dbFullJson : Json :=
  .obj (.cons "engine" (.str "postgres") (.cons "username" (.str "u")
    (.cons "password" (.str "p") (.cons "host" (.str "h")
      (.cons "dbname" (.str "d") (.cons "port" (.str "5432") .nil))))))

/-- The decoded value `{a: "1"}`. -/
def kvAJson : Json := .obj (.cons "a" (.str "1") .nil)

/-- The decoded value `["a","b"]`. -/
def arrStringsJson : Json := .arr (.cons (.str "a") (.cons (.str "b") .nil))

/-- Concatenation of two field lists. -/
def appendF : JsonFields → JsonFields → JsonFields
  | .nil, gs => gs
  | .cons k v t, gs => .cons k v (appendF t gs)

/-- The text following a printed number must not start with another digit
(otherwise the number reader would absorb it). -/
def delimOk (rest : List Char) : Prop :=
  ∀ c, rest.head? = some c → isDigitC c = false

instance {ε α : Type} [DecidableEq ε] [DecidableEq α] : DecidableEq (Except ε α)
  | .ok a, .ok b =>
      if h : a = b then .isTrue (by rw [h])
      else .isFalse (by intro hc; cases hc; exact h rfl)
  | .error a, .error b =>
      if h : a = b then .isTrue (by rw [h])
      else .isFalse (by intro hc; cases hc; exact h rfl)
  | .ok _, .error _ => .isFalse (by intro hc; cases hc)
  | .error _, .ok _ => .isFalse (by intro hc; cases hc)

/-- The decoded value of `dbNoDbnameChars` (no `dbname` field). -/
def dbNoDbnameJson : Json :=
  .obj (.cons "engine" (.str "postgres") (.cons "username" (.str "u")
    (.cons "password" (.str "p") (.cons "host" (.str "h")
      (.cons "port" (.str "5432") .nil)))))

theorem lookupKV_insertKV {α : Type} (l : List (String × α)) (k k' : String) (v : α) :
    lookupKV (insertKV l k v) k' = if k = k' then some v else lookupKV l k' := by
  induction l with
  | nil => simp [insertKV, lookupKV]
  | cons p rest ih =>
    obtain ⟨k0, v0⟩ := p
    by_cases h0 : k0 = k
    · subst h0
      simp only [insertKV, if_pos rfl, lookupKV]
      by_cases h1 : k0 = k'
      · simp [h1]
      · simp [h1, lookupKV]
    · simp only [insertKV, if_neg h0, lookupKV]
      by_cases h1 : k0 = k'
      · subst h1
        have : ¬ k = k0 := fun h => h0 h.symm
        simp [this]
      · simp [h1, ih]

theorem containsKV_insertKV {α : Type} (l : List (String × α)) (k k' : String) (v : α) :
    containsKV (insertKV l k v) k' = (containsKV l k' || k = k') := by
  unfold containsKV
  rw [lookupKV_insertKV]
  by_cases h : k = k'
  · simp [h]
  · simp [h]

theorem containsKV_applyWrites (env : List (String × Json)) (ws : List (String × Json)) (k : String) :
    containsKV (applyWrites env ws) k = (containsKV env k || (ws.map Prod.fst).contains k) := by
  induction ws generalizing env with
  | nil => simp [applyWrites]
  | cons p rest ih =>
    obtain ⟨k0, v0⟩ := p
    show containsKV (applyWrites (insertKV env k0 v0) rest) k = _
    rw [ih, containsKV_insertKV]
    simp only [List.map_cons, List.contains_cons]
    by_cases h : k0 = k
    · simp [h, beq_iff_eq]
    · have hne : ¬ (k == k0) = true := by
        simp only [beq_iff_eq]
        exact fun hh => h hh.symm
      simp only [h, hne, Bool.false_or]
      simp only [decide_False, Bool.or_false, Bool.false_or]

theorem isStrOpt_elim {o : Option Json} (h : isStrOpt o = true) :
    ∃ s, o = some (.str s) := by
  match o with
  | some (.str s) => exact ⟨s, rfl⟩
  | some .null => simp [isStrOpt] at h
  | some (.bool _) => simp [isStrOpt] at h
  | some (.num _) => simp [isStrOpt] at h
  | some (.arr _) => simp [isStrOpt] at h
  | some (.obj _) => simp [isStrOpt] at h
  | none => simp [isStrOpt] at h

theorem fieldOk_elim {v : Json} {p : String × String} (h : fieldOk v p = true) :
    ∃ j, jsGet v p.1 = some j ∧ j ≠ .null := by
  unfold fieldOk at h
  cases hj : jsGet v p.1 with
  | none => simp [hj] at h
  | some j =>
    cases j with
    | null => simp [hj] at h
    | bool b => exact ⟨.bool b, rfl, by intro hc; cases hc⟩
    | num n => exact ⟨.num n, rfl, by intro hc; cases hc⟩
    | str s => exact ⟨.str s, rfl, by intro hc; cases hc⟩
    | arr xs => exact ⟨.arr xs, rfl, by intro hc; cases hc⟩
    | obj fs => exact ⟨.obj fs, rfl, by intro hc; cases hc⟩

theorem fieldOk_intro {v : Json} {k : String} {j : Json} (p2 : String)
    (hj : jsGet v k = some j) (hn : j ≠ .null) : fieldOk v (k, p2) = true := by
  unfold fieldOk
  rw [hj]
  cases j with
  | null => exact absurd rfl hn
  | bool b => rfl
  | num n => rfl
  | str s => rfl
  | arr xs => rfl
  | obj fs => rfl

theorem projectFields_cons_ok (v : Json) (t : SecretType) (key envVar : String)
    (rest : List (String × String)) (j : Json)
    (hj : jsGet v key = some j) (hn : j ≠ .null) :
    projectFields v t ((key, envVar) :: rest) =
      ((envVar, j) :: (projectFields v t rest).1, (projectFields v t rest).2) := by
  cases j with
  | null => exact absurd rfl hn
  | bool b => simp only [projectFields, hasOwnProp, hj, Option.isSome_some, if_true]
  | num n => simp only [projectFields, hasOwnProp, hj, Option.isSome_some, if_true]
  | str s => simp only [projectFields, hasOwnProp, hj, Option.isSome_some, if_true]
  | arr xs => simp only [projectFields, hasOwnProp, hj, Option.isSome_some, if_true]
  | obj fs => simp only [projectFields, hasOwnProp, hj, Option.isSome_some, if_true]

theorem projectFields_cons_missing (v : Json) (t : SecretType) (key envVar : String)
    (rest : List (String × String)) (hj : jsGet v key = none) :
    projectFields v t ((key, envVar) :: rest) =
      ([], some (.missingSecretField key t envVar)) := by
  simp [projectFields, hasOwnProp, hj]

theorem projectFields_cons_null (v : Json) (t : SecretType) (key envVar : String)
    (rest : List (String × String)) (hj : jsGet v key = some .null) :
    projectFields v t ((key, envVar) :: rest) =
      ([], some (.nullSecretField key t envVar)) := by
  simp [projectFields, hasOwnProp, hj]

theorem projectFields_eq_map (v : Json) (t : SecretType) (l : List (String × String))
    (h : ∀ p ∈ l, fieldOk v p = true) :
    projectFields v t l = (l.map (fun p => (p.2, propValD v p.1)), none) := by
  induction l with
  | nil => rfl
  | cons p rest ih =>
    obtain ⟨key, envVar⟩ := p
    obtain ⟨j, hj, hn⟩ := fieldOk_elim (h (key, envVar) (by simp))
    rw [projectFields_cons_ok v t key envVar rest j hj hn,
        ih (fun q hq => h q (List.mem_cons_of_mem _ hq))]
    simp [propValD, hj]

theorem verify_basic_elim {v : Json} (h : verify v .basic_credentials = true) :
    (∃ s, jsGet v "username" = some (.str s)) ∧
    (∃ s, jsGet v "password" = some (.str s)) := by
  unfold verify at h
  split at h
  · exact absurd h (by simp)
  · simp only [Bool.and_eq_true] at h
    exact ⟨isStrOpt_elim h.1, isStrOpt_elim h.2⟩

theorem verify_db_elim {v : Json} (h : verify v .database_credentials = true) :
    (∃ s, jsGet v "engine" = some (.str s)) ∧
    (∃ s, jsGet v "username" = some (.str s)) ∧
    (∃ s, jsGet v "password" = some (.str s)) ∧
    (∃ s, jsGet v "host" = some (.str s)) ∧
    (∃ s, jsGet v "dbname" = some (.str s)) ∧
    (∃ s, jsGet v "port" = some (.str s)) := by
  unfold verify at h
  split at h
  · exact absurd h (by simp)
  · simp only [Bool.and_eq_true] at h
    obtain ⟨⟨⟨⟨⟨h1, h2⟩, h3⟩, h4⟩, h5⟩, h6⟩ := h
    exact ⟨isStrOpt_elim h1, isStrOpt_elim h2, isStrOpt_elim h3,
           isStrOpt_elim h4, isStrOpt_elim h5, isStrOpt_elim h6⟩

theorem verify_ssh_elim {v : Json} (h : verify v .ssh_key = true) :
    ∃ s, jsGet v "ssh_private_key" = some (.str s) := by
  unfold verify at h
  split at h
  · exact absurd h (by simp)
  · exact isStrOpt_elim h

theorem verify_field_str {t : SecretType} {v : Json} {f : String}
    (hv : verify v t = true) (hf : f ∈ requiredFields t) :
    ∃ s, jsGet v f = some (.str s) := by
  cases t with
  | basic_credentials =>
    obtain ⟨h1, h2⟩ := verify_basic_elim hv
    simp only [requiredFields, List.mem_cons, List.mem_singleton] at hf
    rcases hf with rfl | rfl | hc
    · exact h1
    · exact h2
    · cases hc
  | database_credentials =>
    obtain ⟨h1, h2, h3, h4, h5, h6⟩ := verify_db_elim hv
    simp only [requiredFields, List.mem_cons, List.mem_singleton] at hf
    rcases hf with rfl | rfl | rfl | rfl | rfl | rfl | hc
    · exact h1
    · exact h2
    · exact h3
    · exact h4
    · exact h5
    · exact h6
    · cases hc
  | key_value => simp [requiredFields] at hf
  | ssh_key =>
    simp only [requiredFields, List.mem_singleton] at hf
    subst hf
    exact verify_ssh_elim hv

theorem fieldOk_of_required {t : SecretType} {v : Json} {p : String × String}
    (hv : verify v t = true) (hf : p.1 ∈ requiredFields t) :
    fieldOk v p = true := by
  obtain ⟨s, hs⟩ := verify_field_str hv hf
  exact fieldOk_intro p.2 hs (by intro hc; cases hc)

/-- Claim C8 (confirmed): invoking the optional handler with an absent
payload is a no-op — the state (variable store and decoded-secret cache) is
returned unchanged and no error is produced. -/
theorem c8_optional_noop (mapping : SecretMapping) (name : String) (st : EnvState) :
    optionalHandler mapping name none st = (st, none) := rfl

/-- Claim C1 — counterexample: after the required `basic_credentials`
handler decodes a secret named `MYSECRET` (writing `USERNAME` and
`PASSWORD`), the decoded-secret cache contains `MYSECRET` yet
`BaseModule.exists "MYSECRET"` is false, and `BaseModule.exists "USERNAME"`
is true although no secret named `USERNAME` was decoded: the presence check
is not equivalent to cache membership. -/
theorem c1_counterexample :
    (containsKV (requiredHandler (credentials []) "MYSECRET" (some basicPayloadChars) emptyState).1.secrets
        "MYSECRET" = true ∧
     existsEnv (requiredHandler (credentials []) "MYSECRET" (some basicPayloadChars) emptyState).1
        "MYSECRET" = false) ∧
    (containsKV (requiredHandler (credentials []) "MYSECRET" (some basicPayloadChars) emptyState).1.secrets
        "USERNAME" = false ∧
     existsEnv (requiredHandler (credentials []) "MYSECRET" (some basicPayloadChars) emptyState).1
        "USERNAME" = true) := by
  decide

/-- Claim C1 (amended): `BaseModule.exists` consults the variable store
(`process.env`) only — after any sequence of writes it answers true exactly
when the store already held the key or some write targeted it, entirely
independent of the decoded-secret cache (the cache argument is arbitrary on
both sides). -/
theorem c1_amended (env secrets secrets' : List (String × Json))
    (ws : List (String × Json)) (k : String) :
    existsEnv ⟨applyWrites env ws, secrets⟩ k =
      (existsEnv ⟨env, secrets'⟩ k || (ws.map Prod.fst).contains k) := by
  unfold existsEnv
  exact containsKV_applyWrites env ws k

/-- Claim C2 — counterexample: the `ssh_key` handler constructed with no
override has an *empty* mapping, and invoking it on the well-formed payload
`{"ssh_private_key":"KEY"}` succeeds while writing no variable store entry
(only the cache is updated), refuting the claim that every kind other than
`key_value` has a non-empty default mapping. -/
theorem c2_counterexample :
    (ssh []).envMapping = [] ∧
    verify sshJson .ssh_key = true ∧
    requiredHandler (ssh []) "SSHS" (some sshPayloadChars) emptyState =
      (⟨[], [("SSHS", sshJson)]⟩, none) := by
  decide

/-- Claim C2 (amended): only `database_credentials` and `basic_credentials`
have non-empty fixed default mappings — so a no-override handler for either
writes at least one variable store entry on any well-formed payload — while
both `key_value` *and* `ssh_key` have empty default mappings. -/
theorem c2_amended :
    (database []).envMapping ≠ [] ∧
    (credentials []).envMapping ≠ [] ∧
    (kv []).envMapping = [] ∧
    (ssh []).envMapping = [] ∧
    (∀ v, verify v .database_credentials = true →
      (projectFields v .database_credentials (database []).envMapping).1 ≠ []) ∧
    (∀ v, verify v .basic_credentials = true →
      (projectFields v .basic_credentials (credentials []).envMapping).1 ≠ []) := by
  refine ⟨by decide, by decide, rfl, rfl, ?_, ?_⟩
  · intro v hv
    obtain ⟨⟨s, hs⟩, _⟩ := verify_db_elim hv
    have hmap : (database []).envMapping =
        ("engine", "DB_CONNECTION") :: [("host", "DB_HOST"), ("port", "DB_PORT"),
          ("username", "DB_USER"), ("password", "DB_PASSWORD"), ("dbname", "DB_DATABASE")] := rfl
    rw [hmap, projectFields_cons_ok v .database_credentials "engine" "DB_CONNECTION" _ _ hs
      (by intro hc; cases hc)]
    simp
  · intro v hv
    obtain ⟨⟨s, hs⟩, _⟩ := verify_basic_elim hv
    have hmap : (credentials []).envMapping =
        ("username", "USERNAME") :: [("password", "PASSWORD")] := rfl
    rw [hmap, projectFields_cons_ok v .basic_credentials "username" "USERNAME" _ _ hs
      (by intro hc; cases hc)]
    simp

/-- Witness for `c2_amended`: its hypotheses are satisfiable at concrete
well-formed payloads of both credential kinds. -/
theorem c2_amended_witness :
    (verify dbFullJson .database_credentials = true ∧
      (projectFields dbFullJson .database_credentials (database []).envMapping).1 ≠ []) ∧
    (verify basicJson .basic_credentials = true ∧
      (projectFields basicJson .basic_credentials (credentials []).envMapping).1 ≠ []) :=
  ⟨⟨by decide, c2_amended.2.2.2.2.1 dbFullJson (by decide)⟩,
   ⟨by decide, c2_amended.2.2.2.2.2 basicJson (by decide)⟩⟩

/-- Claim C3 (confirmed): whenever the decoded value fails the kind's
structural check, the required handler stops with `InvalidSecretShape` and
the variable store is left exactly as it was (only the decoded-secret cache
records the parsed value, as the source does before validating). -/
theorem c3_shape_failure (mapping : SecretMapping) (name : String)
    (raw : Option (List Char)) (st : EnvState) (v : Json)
    (hp : parseJson name raw = .ok v) (hv : verify v mapping.type = false) :
    requiredHandler mapping name raw st =
      ({ st with secrets := insertKV st.secrets name v },
       some (.invalidSecretShape mapping.type)) := by
  simp [requiredHandler, hp, mapSecret, hv]

/-- Witness for `c3_shape_failure`: a `database_credentials` payload missing
`dbname` decodes fine, fails validation, and leaves the variable store
untouched. -/
theorem c3_shape_failure_witness :
    (parseJson "DBS" (some dbNoDbnameChars) = .ok dbNoDbnameJson ∧
     verify dbNoDbnameJson .database_credentials = false) ∧
    requiredHandler (database []) "DBS" (some dbNoDbnameChars) emptyState =
      ({ emptyState with secrets := insertKV emptyState.secrets "DBS" dbNoDbnameJson },
       some (.invalidSecretShape .database_credentials)) :=
  ⟨⟨by decide, by decide⟩,
   c3_shape_failure (database []) "DBS" (some dbNoDbnameChars) emptyState dbNoDbnameJson
     (by decide) (by decide)⟩

/-- Claim C5 (confirmed): the `database_credentials` handler constructed
with override `{host: "CUSTOM_HOST"}` has the shallow field-by-field merge
of the defaults and the override as its mapping, and on any well-formed
payload it writes the `host` value to `CUSTOM_HOST` while every other field
goes to its default variable; `DB_HOST` is never among the written names. -/
theorem c5_override_merge (v : Json) (hv : verify v .database_credentials = true) :
    (database [("host", "CUSTOM_HOST")]).envMapping =
      [("engine", "DB_CONNECTION"), ("host", "CUSTOM_HOST"), ("port", "DB_PORT"),
       ("username", "DB_USER"), ("password", "DB_PASSWORD"), ("dbname", "DB_DATABASE")] ∧
    projectFields v .database_credentials (database [("host", "CUSTOM_HOST")]).envMapping =
      ([("DB_CONNECTION", propValD v "engine"), ("CUSTOM_HOST", propValD v "host"),
        ("DB_PORT", propValD v "port"), ("DB_USER", propValD v "username"),
        ("DB_PASSWORD", propValD v "password"), ("DB_DATABASE", propValD v "dbname")], none) ∧
    ((projectFields v .database_credentials
        (database [("host", "CUSTOM_HOST")]).envMapping).1.map Prod.fst).contains "DB_HOST"
      = false := by
  have hmap : (database [("host", "CUSTOM_HOST")]).envMapping =
      [("engine", "DB_CONNECTION"), ("host", "CUSTOM_HOST"), ("port", "DB_PORT"),
       ("username", "DB_USER"), ("password", "DB_PASSWORD"), ("dbname", "DB_DATABASE")] := by
    decide
  have hproj : projectFields v .database_credentials
      (database [("host", "CUSTOM_HOST")]).envMapping =
      ([("DB_CONNECTION", propValD v "engine"), ("CUSTOM_HOST", propValD v "host"),
        ("DB_PORT", propValD v "port"), ("DB_USER", propValD v "username"),
        ("DB_PASSWORD", propValD v "password"), ("DB_DATABASE", propValD v "dbname")], none) := by
    rw [hmap, projectFields_eq_map]
    · simp
    · intro p hp
      apply fieldOk_of_required hv
      simp only [List.mem_cons, List.mem_singleton] at hp
      rcases hp with rfl | rfl | rfl | rfl | rfl | rfl | hc
      · decide
      · decide
      · decide
      · decide
      · decide
      · decide
      · cases hc
  refine ⟨hmap, hproj, ?_⟩
  rw [hproj]
  simp only [List.map_cons, List.map_nil]
  decide

/-- Witness for `c5_override_merge`: the full well-formed payload
`dbFullJson` satisfies the validation hypothesis. -/
theorem c5_override_merge_witness :
    verify dbFullJson .database_credentials = true ∧
    projectFields dbFullJson .database_credentials
        (database [("host", "CUSTOM_HOST")]).envMapping =
      ([("DB_CONNECTION", propValD dbFullJson "engine"),
        ("CUSTOM_HOST", propValD dbFullJson "host"),
        ("DB_PORT", propValD dbFullJson "port"),
        ("DB_USER", propValD dbFullJson "username"),
        ("DB_PASSWORD", propValD dbFullJson "password"),
        ("DB_DATABASE", propValD dbFullJson "dbname")], none) :=
  ⟨by decide, (c5_override_merge dbFullJson (by decide)).2.1⟩

/-- Claim C7 (confirmed): projection is fail-fast with no rollback — if the
entry `(key, envVar)` positioned after `pre` is the one that fails (every
entry of `pre` succeeds), then exactly the `pre` entries have been written,
in mapping order, the error is `NullSecretField` when the key is an own
property (so its value was `null`/`undefined`) and `MissingSecretField`
otherwise, and each previously written variable is still present in the
store after the failing call. -/
theorem c7_fail_fast (v : Json) (t : SecretType) (σ : List (String × Json))
    (pre : List (String × String)) (key envVar : String) (rest : List (String × String))
    (hok : ∀ p ∈ pre, fieldOk v p = true) (hfail : fieldOk v (key, envVar) = false) :
    (projectFields v t (pre ++ (key, envVar) :: rest)).1 =
      pre.map (fun p => (p.2, propValD v p.1)) ∧
    (projectFields v t (pre ++ (key, envVar) :: rest)).2 =
      some (if hasOwnProp v key then SecretErr.nullSecretField key t envVar
            else SecretErr.missingSecretField key t envVar) ∧
    (∀ p ∈ pre,
      containsKV (applyWrites σ (projectFields v t (pre ++ (key, envVar) :: rest)).1) p.2
        = true) := by
  have main : (projectFields v t (pre ++ (key, envVar) :: rest)).1 =
        pre.map (fun p => (p.2, propValD v p.1)) ∧
      (projectFields v t (pre ++ (key, envVar) :: rest)).2 =
        some (if hasOwnProp v key then SecretErr.nullSecretField key t envVar
              else SecretErr.missingSecretField key t envVar) := by
    induction pre with
    | nil =>
      simp only [List.nil_append, List.map_nil]
      unfold fieldOk at hfail
      cases hj : jsGet v key with
      | none =>
        rw [projectFields_cons_missing v t key envVar rest hj]
        simp [hasOwnProp, hj]
      | some j =>
        cases j with
        | null =>
          rw [projectFields_cons_null v t key envVar rest hj]
          simp [hasOwnProp, hj]
        | bool b => rw [hj] at hfail; simp at hfail
        | num n => rw [hj] at hfail; simp at hfail
        | str s => rw [hj] at hfail; simp at hfail
        | arr xs => rw [hj] at hfail; simp at hfail
        | obj fs => rw [hj] at hfail; simp at hfail
    | cons p pre' ih =>
      obtain ⟨key0, env0⟩ := p
      obtain ⟨j, hj, hn⟩ := fieldOk_elim (hok (key0, env0) (by simp))
      have ih' := ih (fun q hq => hok q (List.mem_cons_of_mem _ hq))
      simp only [List.cons_append]
      rw [projectFields_cons_ok v t key0 env0 _ j hj hn]
      simp only [List.map_cons]
      refine ⟨?_, ih'.2⟩
      rw [ih'.1]
      simp [propValD, hj]
  refine ⟨main.1, main.2, ?_⟩
  intro p hp
  rw [main.1, containsKV_applyWrites]
  have : ((pre.map (fun q => (q.2, propValD v q.1))).map Prod.fst).contains p.2 = true := by
    rw [List.map_map]
    have : p.2 ∈ pre.map (fun q => (Prod.fst ∘ fun q => (q.2, propValD v q.1)) q) := by
      exact List.mem_map.mpr ⟨p, hp, rfl⟩
    exact List.elem_iff.mpr this
  rw [this]
  simp

/-- Witness for `c7_fail_fast`: with value `{a: "1"}` and mapping
`[(a, A), (b, B)]`, the second entry fails while `A` has already been
written. -/
theorem c7_fail_fast_witness :
    ((∀ p ∈ [("a", "A")], fieldOk kvAJson p = true) ∧
      fieldOk kvAJson ("b", "B") = false) ∧
    (projectFields kvAJson .key_value ([("a", "A")] ++ ("b", "B") :: [])).1 =
      [("a", "A")].map (fun p => (p.2, propValD kvAJson p.1)) :=
  ⟨⟨by decide, by decide⟩,
   (c7_fail_fast kvAJson .key_value [] [("a", "A")] "b" "B" [] (by decide) (by decide)).1⟩

/-- Claim C9 (confirmed): for the fixed-shape kinds (everything except
`key_value`), once validation has succeeded the projection error branches
are unreachable for any mapping drawn from the kind's required field set —
every mapped field is written (one write per mapping entry, in order) and no
error is produced. -/
theorem c9_projection_total (t : SecretType) (v : Json) (l : List (String × String))
    (hkv : t ≠ .key_value) (hv : verify v t = true)
    (hl : ∀ p ∈ l, p.1 ∈ requiredFields t) :
    projectFields v t l = (l.map (fun p => (p.2, propValD v p.1)), none) := by
  have _ := hkv
  exact projectFields_eq_map v t l (fun p hp => fieldOk_of_required hv (hl p hp))

/-- Witness for `c9_projection_total`: a `basic_credentials` value with a
mapping over its required fields. -/
theorem c9_projection_total_witness :
    (SecretType.basic_credentials ≠ SecretType.key_value ∧
      verify basicJson .basic_credentials = true ∧
      (∀ p ∈ [("username", "USER_X"), ("password", "PASS_X")],
        p.1 ∈ requiredFields .basic_credentials)) ∧
    projectFields basicJson .basic_credentials [("username", "USER_X"), ("password", "PASS_X")] =
      ([("username", "USER_X"), ("password", "PASS_X")].map
        (fun p => (p.2, propValD basicJson p.1)), none) :=
  ⟨⟨by decide, by decide, by decide⟩,
   c9_projection_total .basic_credentials basicJson
     [("username", "USER_X"), ("password", "PASS_X")] (by decide) (by decide) (by decide)⟩

/-- Claim C10 (confirmed): `key_value` validation accepts any non-null
value of object type whose own enumerable values are all strings — it
equals the "all values are strings" check under the object gate; in
particular the empty object passes (and projecting it with the empty
mapping succeeds writing nothing), and the array `["a","b"]` passes too,
since arrays are not excluded by the `typeof === 'object'` check. -/
theorem c10_key_value_validation (v : Json)
    (h1 : typeofIsObject v = true) (h2 : v ≠ .null) :
    verify v .key_value = (jsValues v).all isStrVal ∧
    verify (.obj .nil) .key_value = true ∧
    projectFields (.obj .nil) .key_value [] = ([], none) ∧
    verify arrStringsJson .key_value = true := by
  refine ⟨?_, by decide, rfl, by decide⟩
  unfold verify
  have hd : (decide (v = Json.null)) = false := decide_eq_false h2
  simp [h1, hd]

/-- Witness for `c10_key_value_validation`: the array of strings
`["a","b"]` is a non-null value of object type. -/
theorem c10_key_value_validation_witness :
    (typeofIsObject arrStringsJson = true ∧ arrStringsJson ≠ .null) ∧
    verify arrStringsJson .key_value = (jsValues arrStringsJson).all isStrVal :=
  ⟨⟨by decide, by decide⟩,
   (c10_key_value_validation arrStringsJson (by decide) (by decide)).1⟩

/-- Claim C4 — counterexample: the payload `'"true"'` decodes to the JSON
string `"true"`; re-serializing that value gives the text `"true"`, whose
second decode strips the quote pair and parses the boolean `true` — decode
after re-serialization succeeds but yields a *different* structured value,
refuting the round-trip claim for top-level strings. -/
theorem c4_counterexample :
    parseJson "s" (some quotedTrueChars) = .ok (.str "true") ∧
    printJ (.str "true") = dqWrap "true" ∧
    parseJson "s" (some (printJ (.str "true"))) = .ok (.bool true) ∧
    Json.bool true ≠ Json.str "true" := by
  decide

theorem dropWhile_head_not (p : Char → Bool) (l : List Char)
    (h : ∀ c, l.head? = some c → p c = false) : l.dropWhile p = l := by
  cases l with
  | nil => rfl
  | cons a t =>
    rw [List.dropWhile_cons]
    simp [h a rfl]

theorem jsTrim_wrap (q : Char) (s : List Char) (hq : isTrimWs q = false) :
    jsTrim (q :: s ++ [q]) = q :: s ++ [q] := by
  have key : ∀ (l : List Char), l.head? = some q → l.dropWhile isTrimWs = l := by
    intro l hl
    apply dropWhile_head_not
    intro c hc
    rw [hl] at hc
    cases hc
    exact hq
  have h1 : (q :: s ++ [q]).head? = some q := by simp
  have h2 : (q :: s ++ [q]).reverse.head? = some q := by
    rw [List.head?_reverse]
    exact List.getLast?_concat _
  unfold jsTrim
  rw [key (q :: s ++ [q]) h1]
  rw [key ((q :: s ++ [q]).reverse) h2]
  rw [List.reverse_reverse]

theorem stripQuotes_wrap (q : Char) (s : List Char) (hq : q = dquoteC ∨ q = squoteC) :
    stripQuotes (q :: s ++ [q]) = s := by
  unfold stripQuotes
  have hh : (q :: s ++ [q]).head? = some q := rfl
  have hl : (q :: s ++ [q]).getLast? = some q := List.getLast?_concat _
  have hcond : ((q :: s ++ [q]).head? = some dquoteC ∧ (q :: s ++ [q]).getLast? = some dquoteC) ∨
      ((q :: s ++ [q]).head? = some squoteC ∧ (q :: s ++ [q]).getLast? = some squoteC) := by
    rcases hq with rfl | rfl
    · exact Or.inl ⟨hh, hl⟩
    · exact Or.inr ⟨hh, hl⟩
  rw [if_pos hcond]
  show (s ++ [q]).dropLast = s
  exact List.dropLast_concat

theorem preprocess_wrap (q : Char) (s : List Char) (hq : q = dquoteC ∨ q = squoteC)
    (hs : ∀ c ∈ s, c ≠ bslashC) : preprocess (q :: s ++ [q]) = s := by
  have hqt : isTrimWs q = false := by rcases hq with rfl | rfl <;> decide
  have hqb : q ≠ bslashC := by rcases hq with rfl | rfl <;> decide
  have hbs : stripBackslashes (q :: s ++ [q]) = q :: s ++ [q] := by
    apply List.filter_eq_self.mpr
    intro a ha
    simp only [List.cons_append, List.mem_cons, List.mem_append, List.mem_singleton,
      List.mem_nil_iff, or_false] at ha
    rcases ha with rfl | ha | rfl
    · simpa using hqb
    · simpa using hs a ha
    · simpa using hqb
  unfold preprocess
  rw [jsTrim_wrap q s hqt, hbs, stripQuotes_wrap q s hq]

/-- Claim C6 (confirmed): quote-stripping is applied exactly once per
decode — for either quote character, a backslash-free text wrapped in one
matching pair preprocesses to the bare text (one pair removed), and a text
wrapped in two layers preprocesses to a text still wrapped in one layer
(no recursive unwrapping). -/
theorem c6_single_quote_strip (q : Char) (inner : List Char)
    (hq : q = dquoteC ∨ q = squoteC) (hs : ∀ c ∈ inner, c ≠ bslashC) :
    preprocess (q :: inner ++ [q]) = inner ∧
    preprocess (q :: q :: inner ++ [q, q]) = q :: inner ++ [q] := by
  have hqb : q ≠ bslashC := by rcases hq with rfl | rfl <;> decide
  refine ⟨preprocess_wrap q inner hq hs, ?_⟩
  have hs' : ∀ c ∈ q :: inner ++ [q], c ≠ bslashC := by
    intro c hc
    simp only [List.cons_append, List.mem_cons, List.mem_append, List.mem_singleton,
      List.mem_nil_iff, or_false] at hc
    rcases hc with rfl | hc | rfl
    · exact hqb
    · exact hs c hc
    · exact hqb
  have h2 := preprocess_wrap q (q :: inner ++ [q]) hq hs'
  have hsh : q :: (q :: inner ++ [q]) ++ [q] = q :: q :: inner ++ [q, q] := by
    simp
  rw [hsh] at h2
  exact h2

/-- Witness for `c6_single_quote_strip`: the single-quote character and the
inner text `"x"` (so the doubly wrapped input is `'"x"'` wrapped again). -/
theorem c6_single_quote_strip_witness :
    ((squoteC = dquoteC ∨ squoteC = squoteC) ∧
      (∀ c ∈ dqWrap "x", c ≠ bslashC)) ∧
    preprocess (squoteC :: dqWrap "x" ++ [squoteC]) = dqWrap "x" :=
  ⟨⟨by decide, by decide⟩,
   (c6_single_quote_strip squoteC (dqWrap "x") (by decide) (by decide)).1⟩

theorem isDigitC_elim {c : Char} (h : isDigitC c = true) :
    48 ≤ c.toNat ∧ c.toNat ≤ 57 := by
  unfold isDigitC at h
  simp only [Bool.and_eq_true, decide_eq_true_eq] at h
  exact h

theorem digit_ne {c : Char} (h : isDigitC c = true) (d : Char)
    (hd : d.toNat < 48 ∨ 57 < d.toNat) : c ≠ d := by
  obtain ⟨h1, h2⟩ := isDigitC_elim h
  intro he
  subst he
  omega

theorem digit_not_ws {c : Char} (h : isDigitC c = true) :
    isJsonWs c = false ∧ isTrimWs c = false := by
  obtain ⟨h1, h2⟩ := isDigitC_elim h
  constructor
  · simp only [isJsonWs, Bool.or_eq_false_iff, decide_eq_false_iff_not]
    refine ⟨⟨⟨?_, ?_⟩, ?_⟩, ?_⟩
    · exact digit_ne h ' ' (by decide)
    · omega
    · omega
    · omega
  · simp only [isTrimWs, Bool.or_eq_false_iff, Bool.and_eq_false_iff,
      decide_eq_false_iff_not]
    refine ⟨?_, ?_⟩
    · exact digit_ne h ' ' (by decide)
    · omega

theorem digitC_toNat {d : Nat} (h : d < 10) : (digitC d).toNat = 48 + d := by
  interval_cases d <;> decide

theorem isDigitC_digitC {d : Nat} (h : d < 10) : isDigitC (digitC d) = true := by
  unfold isDigitC
  rw [digitC_toNat h]
  simp only [Bool.and_eq_true, decide_eq_true_eq]
  omega

theorem natToChars_ne_nil (n : Nat) : natToChars n ≠ [] := by
  unfold natToChars
  split
  · simp
  · simp

theorem natToChars_all_digit (n : Nat) : ∀ c ∈ natToChars n, isDigitC c = true := by
  induction n using Nat.strong_induction_on with
  | _ n ih =>
    unfold natToChars
    split
    · next h =>
      intro c hc
      simp only [List.mem_singleton] at hc
      subst hc
      exact isDigitC_digitC h
    · next h =>
      intro c hc
      simp only [List.mem_append, List.mem_singleton] at hc
      rcases hc with hc | rfl
      · exact ih (n / 10) (Nat.div_lt_self (by omega) (by omega)) c hc
      · exact isDigitC_digitC (Nat.mod_lt _ (by omega))

theorem natToChars_head_pos : ∀ n : Nat, 1 ≤ n →
    ∀ c, (natToChars n).head? = some c → c ≠ '0' := by
  intro n
  induction n using Nat.strong_induction_on with
  | _ n ih =>
    intro hn c hc
    unfold natToChars at hc
    split at hc
    · next h =>
      simp only [List.head?_cons, Option.some_inj] at hc
      subst hc
      intro he
      have h1 := digitC_toNat h
      rw [he] at h1
      have h0 : ('0').toNat = 48 := rfl
      omega
    · next h =>
      obtain ⟨a, as, hl⟩ := List.exists_cons_of_ne_nil (natToChars_ne_nil (n / 10))
      rw [hl, List.cons_append, List.head?_cons, Option.some_inj] at hc
      subst hc
      exact ih (n / 10) (Nat.div_lt_self (by omega) (by omega)) (by omega) a
        (by rw [hl]; rfl)

theorem chainVal_natToChars_aux (n : Nat) : ∀ a : Nat,
    List.foldl (fun x c => x * 10 + (c.toNat - 48)) a (natToChars n) =
      a * 10 ^ (natToChars n).length + n := by
  induction n using Nat.strong_induction_on with
  | _ n ih =>
    intro a
    unfold natToChars
    split
    · next h =>
      simp only [List.foldl_cons, List.foldl_nil, List.length_singleton, pow_one]
      rw [digitC_toNat h]
      omega
    · next h =>
      rw [List.foldl_append, ih (n / 10) (Nat.div_lt_self (by omega) (by omega)) a]
      simp only [List.foldl_cons, List.foldl_nil, List.length_append,
        List.length_singleton]
      rw [digitC_toNat (Nat.mod_lt _ (by omega)), pow_succ]
      have hc : (a * 10 ^ (natToChars (n / 10)).length + n / 10) * 10 + (48 + n % 10 - 48) =
          a * (10 ^ (natToChars (n / 10)).length * 10) + (n / 10 * 10 + n % 10) := by
        ring_nf
        omega
      rw [hc]
      congr 1
      omega

theorem chainVal_natToChars (n : Nat) : chainVal (natToChars n) = n := by
  unfold chainVal
  rw [chainVal_natToChars_aux n 0]
  simp

theorem span_digits (l r : List Char) (hl : ∀ c ∈ l, isDigitC c = true)
    (hr : delimOk r) :
    (l ++ r).takeWhile isDigitC = l ∧ (l ++ r).dropWhile isDigitC = r := by
  induction l with
  | nil =>
    simp only [List.nil_append]
    cases r with
    | nil => simp
    | cons c cs =>
      have hc := hr c rfl
      constructor
      · rw [List.takeWhile_cons]
        simp [hc]
      · rw [List.dropWhile_cons]
        simp [hc]
  | cons a l' ih =>
    have ha := hl a (by simp)
    have ih' := ih (fun c hc => hl c (List.mem_cons_of_mem _ hc))
    constructor
    · rw [List.cons_append, List.takeWhile_cons]
      simp only [ha, if_true]
      rw [ih'.1]
    · rw [List.cons_append, List.dropWhile_cons]
      simp only [ha, if_true]
      exact ih'.2

theorem natToChars_zero : natToChars 0 = ['0'] := by
  unfold natToChars
  simp only [Nat.zero_lt_succ, dif_pos]
  decide

theorem parseUNum_cons (c : Char) (cs : List Char) :
    parseUNum (c :: cs) =
      if c = '0' then some (0, cs)
      else if isDigitC c then
        some (chainVal ((c :: cs).takeWhile isDigitC), (c :: cs).dropWhile isDigitC)
      else none := rfl

theorem parseNum_cons (c : Char) (r : List Char) :
    parseNum (c :: r) =
      if c = '-' then (parseUNum r).map (fun p => (.num (-(p.1 : Int)), p.2))
      else (parseUNum (c :: r)).map (fun p => (.num (p.1 : Int), p.2)) := rfl

theorem parseStrChars_cons (c : Char) (cs : List Char) :
    parseStrChars (c :: cs) =
      if c = dquoteC then some ([], cs)
      else if c = bslashC || c.toNat < 32 then none
      else (parseStrChars cs).map (fun p => (c :: p.1, p.2)) := rfl

theorem parseUNum_natToChars (n : Nat) (rest : List Char) (hr : delimOk rest) :
    parseUNum (natToChars n ++ rest) = some (n, rest) := by
  by_cases h0 : n = 0
  · subst h0
    rw [natToChars_zero]
    rfl
  · obtain ⟨d, ds, hds⟩ := List.exists_cons_of_ne_nil (natToChars_ne_nil n)
    have hd : isDigitC d = true := natToChars_all_digit n d (by rw [hds]; simp)
    have hd0 : d ≠ '0' := natToChars_head_pos n (by omega) d (by rw [hds]; rfl)
    have hs := span_digits (d :: ds) rest (by rw [← hds]; exact natToChars_all_digit n) hr
    rw [hds, List.cons_append, parseUNum_cons, if_neg hd0, if_pos hd,
        ← List.cons_append, hs.1, hs.2, ← hds, chainVal_natToChars]

theorem parseNum_intToChars (i : Int) (rest : List Char) (hr : delimOk rest) :
    parseNum (intToChars i ++ rest) = some (.num i, rest) := by
  unfold intToChars
  split
  · next hneg =>
    rw [List.cons_append, parseNum_cons, if_pos rfl, parseUNum_natToChars _ _ hr]
    simp only [Option.map_some']
    have habs : -((i.natAbs : Int)) = i := by omega
    rw [habs]
  · next hpos =>
    obtain ⟨d, ds, hds⟩ := List.exists_cons_of_ne_nil (natToChars_ne_nil i.natAbs)
    have hd : isDigitC d = true := natToChars_all_digit _ d (by rw [hds]; simp)
    have hdm : d ≠ '-' := digit_ne hd '-' (by decide)
    rw [hds, List.cons_append, parseNum_cons, if_neg hdm, ← List.cons_append,
        ← hds, parseUNum_natToChars _ _ hr]
    simp only [Option.map_some']
    have habs : ((i.natAbs : Int)) = i := by omega
    rw [habs]

theorem eatLit_append (lit cs : List Char) : eatLit lit (lit ++ cs) = some cs := by
  induction lit with
  | nil => rfl
  | cons a l ih =>
    rw [List.cons_append]
    show (if a = a then eatLit l (l ++ cs) else none) = some cs
    rw [if_pos rfl]
    exact ih

theorem parseStrChars_clean (s rest : List Char) (hs : ∀ c ∈ s, cleanChar c = true) :
    parseStrChars (s ++ dquoteC :: rest) = some (s, rest) := by
  induction s with
  | nil =>
    rw [List.nil_append, parseStrChars_cons, if_pos rfl]
  | cons a t ih =>
    have ha := hs a (by simp)
    unfold cleanChar at ha
    simp only [Bool.and_eq_true, decide_eq_true_eq] at ha
    obtain ⟨⟨ha1, ha2⟩, ha3⟩ := ha
    rw [List.cons_append, parseStrChars_cons, if_neg ha1,
        if_neg (by
          simp only [Bool.or_eq_true, decide_eq_true_eq, not_or]
          exact ⟨ha2, by omega⟩),
        ih (fun c hc => hs c (List.mem_cons_of_mem _ hc))]
    rfl

theorem parseStrChars_sound : ∀ (cs out rest : List Char),
    parseStrChars cs = some (out, rest) → ∀ c ∈ out, cleanChar c = true := by
  intro cs
  induction cs with
  | nil => intro out rest h; cases h
  | cons a t ih =>
    intro out rest h c hc
    rw [parseStrChars_cons] at h
    by_cases h1 : a = dquoteC
    · rw [if_pos h1] at h
      cases h
      cases hc
    · rw [if_neg h1] at h
      by_cases h2 : (a = bslashC || a.toNat < 32 : Bool) = true
      · rw [if_pos h2] at h
        cases h
      · rw [if_neg h2] at h
        simp only [Bool.or_eq_true, decide_eq_true_eq, not_or] at h2
        cases hout : parseStrChars t with
        | none => rw [hout] at h; cases h
        | some p =>
          rw [hout] at h
          obtain ⟨p1, p2⟩ := p
          simp only [Option.map_some', Option.some_inj, Prod.mk.injEq] at h
          obtain ⟨hh1, hh2⟩ := h
          subst hh1
          subst hh2
          simp only [List.mem_cons] at hc
          rcases hc with rfl | hc
          · unfold cleanChar
            simp only [Bool.and_eq_true, decide_eq_true_eq]
            exact ⟨⟨h1, h2.1⟩, by omega⟩
          · exact ih p1 p2 hout c hc

theorem lookupF_cons (k' : String) (v : Json) (t : JsonFields) (k : String) :
    lookupF (.cons k' v t) k = if k' = k then some v else lookupF t k := rfl

/-- Structural induction principle for `JsonFields` alone (the `induction`
tactic cannot target one member of a mutual inductive family). -/
theorem JsonFields.ind (P : JsonFields → Prop) (hnil : P .nil)
    (hcons : ∀ k v t, P t → P (.cons k v t)) : ∀ fs, P fs
  | .nil => hnil
  | .cons k v t => hcons k v t (JsonFields.ind P hnil hcons t)

theorem containsF_cons (k' : String) (v' : Json) (t : JsonFields) (k : String) :
    containsF (.cons k' v' t) k = (decide (k' = k) || containsF t k) := by
  unfold containsF
  rw [lookupF_cons]
  by_cases h : k' = k
  · simp [h]
  · simp [h]

theorem containsF_insertF (fs : JsonFields) (k k' : String) (v : Json) :
    containsF (insertF fs k v) k' = (containsF fs k' || decide (k = k')) := by
  induction fs using JsonFields.ind with
  | hnil =>
    show containsF (.cons k v .nil) k' = _
    rw [containsF_cons]
    simp [containsF, lookupF]
  | hcons k0 v0 t ih =>
    by_cases h0 : k0 = k
    · subst h0
      have hins : insertF (JsonFields.cons k0 v0 t) k0 v = JsonFields.cons k0 v t := by
        simp [insertF]
      rw [hins, containsF_cons, containsF_cons]
      by_cases h1 : k0 = k'
      · simp [h1]
      · simp [h1]
    · show containsF (if k0 = k then _ else .cons k0 v0 (insertF t k v)) k' = _
      rw [if_neg h0, containsF_cons, containsF_cons, ih]
      by_cases h1 : k0 = k'
      · simp [h1]
      · simp [h1]

theorem appendF_nil (a : JsonFields) : appendF a .nil = a := by
  induction a using JsonFields.ind with
  | hnil => rfl
  | hcons k v t ih =>
    show JsonFields.cons k v (appendF t .nil) = _
    rw [ih]

theorem appendF_assoc (a b c : JsonFields) :
    appendF (appendF a b) c = appendF a (appendF b c) := by
  induction a using JsonFields.ind with
  | hnil => rfl
  | hcons k v t ih =>
    show JsonFields.cons k v (appendF (appendF t b) c) = JsonFields.cons k v (appendF t (appendF b c))
    rw [ih]

theorem containsF_appendF (a b : JsonFields) (k : String) :
    containsF (appendF a b) k = (containsF a k || containsF b k) := by
  induction a using JsonFields.ind with
  | hnil =>
    show containsF b k = _
    simp [containsF, lookupF]
  | hcons k0 v0 t ih =>
    show containsF (.cons k0 v0 (appendF t b)) k = _
    rw [containsF_cons, containsF_cons, ih, Bool.or_assoc]

theorem insertF_not_contains (fs : JsonFields) (k : String) (v : Json)
    (h : containsF fs k = false) :
    insertF fs k v = appendF fs (.cons k v .nil) := by
  induction fs using JsonFields.ind with
  | hnil => rfl
  | hcons k0 v0 t ih =>
    rw [containsF_cons] at h
    simp only [Bool.or_eq_false_iff, decide_eq_false_iff_not] at h
    show (if k0 = k then _ else JsonFields.cons k0 v0 (insertF t k v)) = _
    rw [if_neg h.1]
    show JsonFields.cons k0 v0 (insertF t k v) = JsonFields.cons k0 v0 (appendF t (.cons k v .nil))
    rw [ih h.2]

theorem cleanF_elim {k : String} {v : Json} {t : JsonFields}
    (h : cleanF (.cons k v t) = true) :
    (∀ c ∈ k.data, cleanChar c = true) ∧ cleanJ v = true ∧
    containsF t k = false ∧ cleanF t = true := by
  unfold cleanF at h
  simp only [Bool.and_eq_true, Bool.not_eq_true', List.all_eq_true] at h
  exact ⟨h.1.1.1, h.1.1.2, h.1.2, h.2⟩

theorem cleanF_insertF (k : String) (v : Json)
    (hk : ∀ c ∈ k.data, cleanChar c = true) (hv : cleanJ v = true) :
    ∀ fs, cleanF fs = true → cleanF (insertF fs k v) = true := by
  intro fs
  induction fs using JsonFields.ind with
  | hnil =>
    intro _
    show cleanF (.cons k v .nil) = true
    unfold cleanF
    simp only [Bool.and_eq_true, Bool.not_eq_true', List.all_eq_true]
    exact ⟨⟨⟨hk, hv⟩, by simp [containsF, lookupF]⟩, rfl⟩
  | hcons k0 v0 t ih =>
    intro hf
    obtain ⟨hk0, hv0, hnd, ht⟩ := cleanF_elim hf
    by_cases h0 : k0 = k
    · subst h0
      have hins : insertF (JsonFields.cons k0 v0 t) k0 v = JsonFields.cons k0 v t := by
        simp [insertF]
      rw [hins]
      unfold cleanF
      simp only [Bool.and_eq_true, Bool.not_eq_true', List.all_eq_true]
      exact ⟨⟨⟨hk0, hv⟩, hnd⟩, ht⟩
    · show cleanF (if k0 = k then _ else .cons k0 v0 (insertF t k v)) = true
      rw [if_neg h0]
      unfold cleanF
      simp only [Bool.and_eq_true, Bool.not_eq_true', List.all_eq_true]
      refine ⟨⟨⟨hk0, hv0⟩, ?_⟩, ih ht⟩
      rw [containsF_insertF, hnd]
      simp only [Bool.false_or, decide_eq_false_iff_not]
      exact fun he => h0 he.symm

theorem cleanChar_elim {c : Char} (h : cleanChar c = true) :
    c ≠ dquoteC ∧ c ≠ bslashC ∧ 32 ≤ c.toNat := by
  unfold cleanChar at h
  simp only [Bool.and_eq_true, decide_eq_true_eq] at h
  exact ⟨h.1.1, h.1.2, h.2⟩

theorem intToChars_cases (i : Int) :
    intToChars i = '-' :: natToChars i.natAbs ∨ intToChars i = natToChars i.natAbs := by
  unfold intToChars
  split
  · exact Or.inl rfl
  · exact Or.inr rfl

theorem printJ_ne_nil (v : Json) : printJ v ≠ [] := by
  cases v with
  | null => simp [printJ]
  | bool b => cases b <;> simp [printJ]
  | num n =>
    show intToChars n ≠ []
    rcases intToChars_cases n with h | h <;> rw [h]
    · simp
    · exact natToChars_ne_nil _
  | str s => simp [printJ]
  | arr xs => cases xs <;> simp [printJ]
  | obj fs => cases fs <;> simp [printJ]

theorem printJ_head (v : Json) : ∃ c r, printJ v = c :: r ∧
    isJsonWs c = false ∧ isTrimWs c = false ∧ c ≠ ']' ∧ c ≠ '}' ∧ c ≠ ',' ∧
    (isStrVal v = false → c ≠ dquoteC ∧ c ≠ squoteC) := by
  cases v with
  | null => exact ⟨'n', _, rfl, by decide, by decide, by decide, by decide, by decide,
      fun _ => ⟨by decide, by decide⟩⟩
  | bool b =>
    cases b
    · exact ⟨'f', _, rfl, by decide, by decide, by decide, by decide, by decide,
        fun _ => ⟨by decide, by decide⟩⟩
    · exact ⟨'t', _, rfl, by decide, by decide, by decide, by decide, by decide,
        fun _ => ⟨by decide, by decide⟩⟩
  | num n =>
    show ∃ c r, intToChars n = c :: r ∧ _
    rcases intToChars_cases n with h | h
    · exact ⟨'-', _, h, by decide, by decide, by decide, by decide, by decide,
        fun _ => ⟨by decide, by decide⟩⟩
    · obtain ⟨d, ds, hds⟩ := List.exists_cons_of_ne_nil (natToChars_ne_nil n.natAbs)
      have hd : isDigitC d = true := natToChars_all_digit _ d (by rw [hds]; simp)
      obtain ⟨hw1, hw2⟩ := digit_not_ws hd
      refine ⟨d, ds, by rw [h, hds], hw1, hw2, digit_ne hd ']' (by decide),
        digit_ne hd '}' (by decide), digit_ne hd ',' (by decide),
        fun _ => ⟨digit_ne hd dquoteC (by decide), digit_ne hd squoteC (by decide)⟩⟩
  | str s =>
    refine ⟨dquoteC, _, rfl, by decide, by decide, by decide, by decide, by decide, ?_⟩
    intro hf
    simp [isStrVal] at hf
  | arr xs =>
    cases xs with
    | nil => exact ⟨'[', _, rfl, by decide, by decide, by decide, by decide, by decide,
        fun _ => ⟨by decide, by decide⟩⟩
    | cons h t => exact ⟨'[', _, rfl, by decide, by decide, by decide, by decide, by decide,
        fun _ => ⟨by decide, by decide⟩⟩
  | obj fs =>
    cases fs with
    | nil => exact ⟨'{', _, rfl, by decide, by decide, by decide, by decide, by decide,
        fun _ => ⟨by decide, by decide⟩⟩
    | cons k v t => exact ⟨'{', _, rfl, by decide, by decide, by decide, by decide, by decide,
        fun _ => ⟨by decide, by decide⟩⟩

theorem printJ_getLast (v : Json) :
    ∀ c, (printJ v).getLast? = some c → isTrimWs c = false := by
  cases v with
  | null =>
    intro c hc
    simp only [printJ] at hc
    simp at hc
    subst hc
    decide
  | bool b =>
    intro c hc
    cases b <;> simp only [printJ] at hc <;> simp at hc <;> subst hc <;> decide
  | num n =>
    intro c hc
    have hm : c ∈ printJ (.num n) := List.mem_of_mem_getLast? hc
    show isTrimWs c = false
    rcases intToChars_cases n with h | h
    · rw [show printJ (.num n) = intToChars n from rfl, h] at hm
      simp only [List.mem_cons] at hm
      rcases hm with rfl | hm
      · decide
      · exact (digit_not_ws (natToChars_all_digit _ c hm)).2
    · rw [show printJ (.num n) = intToChars n from rfl, h] at hm
      exact (digit_not_ws (natToChars_all_digit _ c hm)).2
  | str s =>
    intro c hc
    have : (printJ (.str s)).getLast? = some dquoteC := by
      show ((dquoteC :: s.data) ++ [dquoteC]).getLast? = some dquoteC
      exact List.getLast?_concat _
    rw [this] at hc
    cases hc
    decide
  | arr xs =>
    intro c hc
    cases xs with
    | nil =>
      simp only [printJ] at hc
      simp at hc
      subst hc
      decide
    | cons h t =>
      have : (printJ (.arr (.cons h t))).getLast? = some ']' := by
        show (('[' :: (printJ h ++ printL t)) ++ [']']).getLast? = some ']'
        exact List.getLast?_concat _
      rw [this] at hc
      cases hc
      decide
  | obj fs =>
    intro c hc
    cases fs with
    | nil =>
      simp only [printJ] at hc
      simp at hc
      subst hc
      decide
    | cons k v t =>
      have : (printJ (.obj (.cons k v t))).getLast? = some '}' := by
        show (('{' :: (dquoteC :: k.data ++ dquoteC :: ':' :: printJ v ++ printF t)) ++ ['}']).getLast?
          = some '}'
        exact List.getLast?_concat _
      rw [this] at hc
      cases hc
      decide

theorem cleanL_elim {h : Json} {t : JsonList} (hc : cleanL (.cons h t) = true) :
    cleanJ h = true ∧ cleanL t = true := by
  unfold cleanL at hc
  simp only [Bool.and_eq_true] at hc
  exact hc

theorem cleanJ_str_elim {s : String} (h : cleanJ (.str s) = true) :
    ∀ c ∈ s.data, cleanChar c = true := by
  unfold cleanJ at h
  simpa [List.all_eq_true] using h

mutual

theorem printJ_no_bslash : ∀ v : Json, cleanJ v = true → ∀ c ∈ printJ v, c ≠ bslashC
  | .null, _ => by intro c hc; fin_cases hc <;> decide
  | .bool true, _ => by intro c hc; fin_cases hc <;> decide
  | .bool false, _ => by intro c hc; fin_cases hc <;> decide
  | .num n, _ => by
    intro c hc
    rcases intToChars_cases n with h | h <;>
      rw [show printJ (.num n) = intToChars n from rfl, h] at hc
    · simp only [List.mem_cons] at hc
      rcases hc with rfl | hc
      · decide
      · exact digit_ne (natToChars_all_digit _ c hc) bslashC (by decide)
    · exact digit_ne (natToChars_all_digit _ c hc) bslashC (by decide)
  | .str s, hcl => by
    have hs := cleanJ_str_elim hcl
    simp only [printJ, List.forall_mem_cons, List.forall_mem_append,
      List.forall_mem_singleton]
    exact ⟨⟨by decide, fun c hc => (cleanChar_elim (hs c hc)).2.1⟩, by decide,
      by intro x hx; cases hx⟩
  | .arr .nil, _ => by intro c hc; fin_cases hc <;> decide
  | .arr (.cons h t), hcl => by
    obtain ⟨h1, h2⟩ := cleanL_elim hcl
    simp only [printJ, List.forall_mem_cons, List.forall_mem_append,
      List.forall_mem_singleton]
    exact ⟨by decide, ⟨printJ_no_bslash h h1, printL_no_bslash t h2⟩, by decide,
      by intro x hx; cases hx⟩
  | .obj .nil, _ => by intro c hc; fin_cases hc <;> decide
  | .obj (.cons k v t), hcl => by
    obtain ⟨hk, hv, hnd, ht⟩ := cleanF_elim hcl
    simp only [printJ, List.forall_mem_cons, List.forall_mem_append,
      List.forall_mem_singleton]
    exact ⟨by decide,
      ⟨⟨⟨by decide, fun c hc => (cleanChar_elim (hk c hc)).2.1⟩,
        by decide, by decide, printJ_no_bslash v hv⟩, printF_no_bslash t ht⟩,
      by decide, by intro x hx; cases hx⟩

theorem printL_no_bslash : ∀ xs : JsonList, cleanL xs = true → ∀ c ∈ printL xs, c ≠ bslashC
  | .nil, _ => by intro c hc; cases hc
  | .cons h t, hcl => by
    obtain ⟨h1, h2⟩ := cleanL_elim hcl
    simp only [printL, List.forall_mem_cons, List.forall_mem_append]
    exact ⟨by decide, printJ_no_bslash h h1, printL_no_bslash t h2⟩

theorem printF_no_bslash : ∀ fs : JsonFields, cleanF fs = true → ∀ c ∈ printF fs, c ≠ bslashC
  | .nil, _ => by intro c hc; cases hc
  | .cons k v t, hcl => by
    obtain ⟨hk, hv, hnd, ht⟩ := cleanF_elim hcl
    simp only [printF, List.forall_mem_cons, List.forall_mem_append]
    exact ⟨by decide,
      ⟨⟨by decide, fun c hc => (cleanChar_elim (hk c hc)).2.1⟩,
        by decide, by decide, printJ_no_bslash v hv⟩,
      printF_no_bslash t ht⟩

end

theorem parseV_zero (cs : List Char) : parseV 0 cs = none := rfl

theorem parseArrTail_zero (cs : List Char) : parseArrTail 0 cs = none := rfl

theorem parseObjTail_zero (acc : JsonFields) (cs : List Char) :
    parseObjTail 0 acc cs = none := rfl

theorem parseV_eq (f : Nat) (cs : List Char) (c : Char) (r : List Char)
    (hsk : skipWs cs = c :: r) :
    parseV (f + 1) cs =
      (if c = 'n' then (eatLit ['u', 'l', 'l'] r).map (fun rr => (Json.null, rr))
       else if c = 't' then (eatLit ['r', 'u', 'e'] r).map (fun rr => (Json.bool true, rr))
       else if c = 'f' then (eatLit ['a', 'l', 's', 'e'] r).map (fun rr => (Json.bool false, rr))
       else if c = dquoteC then
         (parseStrChars r).map (fun p => (Json.str (String.mk p.1), p.2))
       else if c = '[' then
         if (skipWs r).head? = some ']' then some (Json.arr .nil, (skipWs r).tail)
         else (parseArrTail f (skipWs r)).map (fun p => (Json.arr p.1, p.2))
       else if c = '{' then
         if (skipWs r).head? = some '}' then some (Json.obj .nil, (skipWs r).tail)
         else (parseObjTail f .nil (skipWs r)).map (fun p => (Json.obj p.1, p.2))
       else if c = '-' || isDigitC c then parseNum (c :: r)
       else none) := by
  unfold parseV
  rw [hsk]

theorem parseV_eq_nil (f : Nat) (cs : List Char) (hsk : skipWs cs = []) :
    parseV (f + 1) cs = none := by
  unfold parseV
  rw [hsk]

theorem parseArrTail_eq (f : Nat) (cs : List Char) (v : Json) (r : List Char)
    (hp : parseV f cs = some (v, r)) :
    parseArrTail (f + 1) cs =
      (if (skipWs r).head? = some ',' then
        (parseArrTail f (skipWs r).tail).map (fun p => (JsonList.cons v p.1, p.2))
      else if (skipWs r).head? = some ']' then some (JsonList.cons v .nil, (skipWs r).tail)
      else none) := by
  conv_lhs => rw [parseArrTail.eq_def]
  split
  · omega
  · rename_i cs2 heq
    have hf : cs2 = f := by omega
    subst hf
    rw [hp]

theorem parseArrTail_eq_none (f : Nat) (cs : List Char) (hp : parseV f cs = none) :
    parseArrTail (f + 1) cs = none := by
  unfold parseArrTail
  rw [hp]

theorem parseObjTail_eq (f : Nat) (acc : JsonFields) (cs : List Char) (c : Char)
    (r : List Char) (hsk : skipWs cs = c :: r) :
    parseObjTail (f + 1) acc cs =
      (if c = dquoteC then
        match parseStrChars r with
        | none => none
        | some (kcs, r1) =>
            if (skipWs r1).head? = some ':' then
              match parseV f (skipWs r1).tail with
              | none => none
              | some (v, r3) =>
                  if (skipWs r3).head? = some ',' then
                    parseObjTail f (insertF acc (String.mk kcs) v) (skipWs r3).tail
                  else if (skipWs r3).head? = some '}' then
                    some (insertF acc (String.mk kcs) v, (skipWs r3).tail)
                  else none
            else none
      else none) := by
  conv_lhs => rw [parseObjTail.eq_def]
  split
  · omega
  · rename_i cs2 heq
    have hf : cs2 = f := by omega
    subst hf
    rw [hsk]

theorem parseObjTail_eq_nil (f : Nat) (acc : JsonFields) (cs : List Char)
    (hsk : skipWs cs = []) : parseObjTail (f + 1) acc cs = none := by
  unfold parseObjTail
  rw [hsk]

theorem parseNum_shape {cs : List Char} {v : Json} {r : List Char}
    (h : parseNum cs = some (v, r)) : ∃ i, v = .num i := by
  cases cs with
  | nil => cases h
  | cons c t =>
    rw [parseNum_cons] at h
    by_cases h1 : c = '-'
    · rw [if_pos h1] at h
      simp only [Option.map_eq_some'] at h
      obtain ⟨p, _, hpe⟩ := h
      cases hpe
      exact ⟨_, rfl⟩
    · rw [if_neg h1] at h
      simp only [Option.map_eq_some'] at h
      obtain ⟨p, _, hpe⟩ := h
      cases hpe
      exact ⟨_, rfl⟩

theorem parse_clean : ∀ fuel : Nat,
    (∀ cs v r, parseV fuel cs = some (v, r) → cleanJ v = true) ∧
    (∀ cs xs r, parseArrTail fuel cs = some (xs, r) → cleanL xs = true) ∧
    (∀ acc cs fs r, cleanF acc = true → parseObjTail fuel acc cs = some (fs, r) →
      cleanF fs = true) := by
  intro fuel
  induction fuel with
  | zero =>
    refine ⟨fun cs v r h => ?_, fun cs xs r h => ?_, fun acc cs fs r _ h => ?_⟩
    · rw [parseV_zero] at h; cases h
    · rw [parseArrTail_zero] at h; cases h
    · rw [parseObjTail_zero] at h; cases h
  | succ f ih =>
    obtain ⟨ihV, ihA, ihO⟩ := ih
    refine ⟨fun cs v r h => ?_, fun cs xs r h => ?_, fun acc cs fs r hacc h => ?_⟩
    · cases hsk : skipWs cs with
      | nil => rw [parseV_eq_nil f cs hsk] at h; cases h
      | cons c rr =>
        rw [parseV_eq f cs c rr hsk] at h
        by_cases h1 : c = 'n'
        · rw [if_pos h1] at h
          simp only [Option.map_eq_some'] at h
          obtain ⟨a, _, ha⟩ := h
          cases ha
          rfl
        · rw [if_neg h1] at h
          by_cases h2 : c = 't'
          · rw [if_pos h2] at h
            simp only [Option.map_eq_some'] at h
            obtain ⟨a, _, ha⟩ := h
            cases ha
            rfl
          · rw [if_neg h2] at h
            by_cases h3 : c = 'f'
            · rw [if_pos h3] at h
              simp only [Option.map_eq_some'] at h
              obtain ⟨a, _, ha⟩ := h
              cases ha
              rfl
            · rw [if_neg h3] at h
              by_cases h4 : c = dquoteC
              · rw [if_pos h4] at h
                simp only [Option.map_eq_some'] at h
                obtain ⟨⟨p1, p2⟩, hp, ha⟩ := h
                cases ha
                show cleanJ (.str (String.mk p1)) = true
                unfold cleanJ
                simp only [List.all_eq_true]
                exact parseStrChars_sound rr p1 p2 hp
              · rw [if_neg h4] at h
                by_cases h5 : c = '['
                · rw [if_pos h5] at h
                  by_cases h5b : (skipWs rr).head? = some ']'
                  · rw [if_pos h5b] at h
                    cases h
                    rfl
                  · rw [if_neg h5b] at h
                    simp only [Option.map_eq_some'] at h
                    obtain ⟨⟨xs2, r2⟩, hp, ha⟩ := h
                    cases ha
                    exact ihA _ xs2 r2 hp
                · rw [if_neg h5] at h
                  by_cases h6 : c = '{'
                  · rw [if_pos h6] at h
                    by_cases h6b : (skipWs rr).head? = some '}'
                    · rw [if_pos h6b] at h
                      cases h
                      rfl
                    · rw [if_neg h6b] at h
                      simp only [Option.map_eq_some'] at h
                      obtain ⟨⟨fs2, r2⟩, hp, ha⟩ := h
                      cases ha
                      exact ihO .nil _ fs2 r2 rfl hp
                  · rw [if_neg h6] at h
                    by_cases h7 : (c = '-' || isDigitC c : Bool) = true
                    · rw [if_pos h7] at h
                      obtain ⟨i, hi⟩ := parseNum_shape h
                      subst hi
                      rfl
                    · rw [if_neg h7] at h
                      cases h
    · cases hp : parseV f cs with
      | none => rw [parseArrTail_eq_none f cs hp] at h; cases h
      | some p =>
        obtain ⟨v, r2⟩ := p
        rw [parseArrTail_eq f cs v r2 hp] at h
        by_cases hb : (skipWs r2).head? = some ','
        · rw [if_pos hb] at h
          simp only [Option.map_eq_some'] at h
          obtain ⟨⟨xs2, r3⟩, hp2, ha⟩ := h
          cases ha
          show cleanL (.cons v xs2) = true
          unfold cleanL
          simp only [Bool.and_eq_true]
          exact ⟨ihV cs v r2 hp, ihA _ xs2 r3 hp2⟩
        · rw [if_neg hb] at h
          by_cases hb2 : (skipWs r2).head? = some ']'
          · rw [if_pos hb2] at h
            cases h
            show cleanL (.cons v .nil) = true
            unfold cleanL
            simp only [Bool.and_eq_true]
            exact ⟨ihV cs v r2 hp, rfl⟩
          · rw [if_neg hb2] at h
            cases h
    · cases hsk : skipWs cs with
      | nil => rw [parseObjTail_eq_nil f acc cs hsk] at h; cases h
      | cons c rr =>
        rw [parseObjTail_eq f acc cs c rr hsk] at h
        by_cases h1 : c = dquoteC
        · rw [if_pos h1] at h
          cases hps : parseStrChars rr with
          | none =>
            simp only [hps] at h
            cases h
          | some p =>
            obtain ⟨kcs, r1⟩ := p
            simp only [hps] at h
            by_cases h2 : (skipWs r1).head? = some ':'
            · rw [if_pos h2] at h
              cases hpv : parseV f (skipWs r1).tail with
              | none =>
                simp only [hpv] at h
                cases h
              | some q =>
                obtain ⟨v, r3⟩ := q
                simp only [hpv] at h
                have hins : cleanF (insertF acc (String.mk kcs) v) = true :=
                  cleanF_insertF (String.mk kcs) v
                    (parseStrChars_sound rr kcs r1 hps) (ihV _ v r3 hpv) acc hacc
                by_cases h3 : (skipWs r3).head? = some ','
                · rw [if_pos h3] at h
                  exact ihO _ _ fs r hins h
                · rw [if_neg h3] at h
                  by_cases h4 : (skipWs r3).head? = some '}'
                  · rw [if_pos h4] at h
                    cases h
                    exact hins
                  · rw [if_neg h4] at h
                    cases h
            · rw [if_neg h2] at h
              cases h
        · rw [if_neg h1] at h
          cases h

theorem skipWs_cons_not {c : Char} (h : isJsonWs c = false) (cs : List Char) :
    skipWs (c :: cs) = c :: cs := by
  unfold skipWs
  simp [h]

theorem num_head (n : Int) :
    ∃ c r, intToChars n = c :: r ∧ (c = '-' ∨ isDigitC c = true) := by
  rcases intToChars_cases n with h | h
  · exact ⟨'-', _, h, Or.inl rfl⟩
  · obtain ⟨d, ds, hds⟩ := List.exists_cons_of_ne_nil (natToChars_ne_nil n.natAbs)
    exact ⟨d, ds, by rw [h, hds],
      Or.inr (natToChars_all_digit _ d (by rw [hds]; simp))⟩

theorem numOrMinus_facts {c : Char} (h : c = '-' ∨ isDigitC c = true) :
    c ≠ 'n' ∧ c ≠ 't' ∧ c ≠ 'f' ∧ c ≠ dquoteC ∧ c ≠ '[' ∧ c ≠ '{' ∧
    ((c = '-' || isDigitC c : Bool) = true) := by
  rcases h with rfl | hd
  · exact ⟨by decide, by decide, by decide, by decide, by decide, by decide, by decide⟩
  · exact ⟨digit_ne hd 'n' (by decide), digit_ne hd 't' (by decide),
      digit_ne hd 'f' (by decide), digit_ne hd dquoteC (by decide),
      digit_ne hd '[' (by decide), digit_ne hd '{' (by decide),
      by simp [hd]⟩

theorem parse_roundtrip : ∀ fuel : Nat,
    (∀ v rest, cleanJ v = true → (printJ v).length < fuel → delimOk rest →
      parseV fuel (printJ v ++ rest) = some (v, rest)) ∧
    (∀ h t rest, cleanJ h = true → cleanL t = true →
      (printJ h).length + (printL t).length + 1 < fuel →
      parseArrTail fuel (printJ h ++ printL t ++ (']' :: rest)) = some (.cons h t, rest)) ∧
    (∀ k v t acc rest, cleanF (.cons k v t) = true →
      (∀ k2, containsF (.cons k v t) k2 = true → containsF acc k2 = false) →
      (dquoteC :: k.data ++ dquoteC :: ':' :: printJ v ++ printF t).length < fuel →
      parseObjTail fuel acc
        (dquoteC :: k.data ++ dquoteC :: ':' :: printJ v ++ printF t ++ ('}' :: rest)) =
        some (appendF acc (.cons k v t), rest)) := by
  intro fuel
  induction fuel with
  | zero =>
    exact ⟨fun v rest _ hl _ => absurd hl (by omega),
           fun h t rest _ _ hl => absurd hl (by omega),
           fun k v t acc rest _ _ hl => absurd hl (by omega)⟩
  | succ f ih =>
    obtain ⟨ihV, ihA, ihO⟩ := ih
    refine ⟨?_, ?_, ?_⟩
    · intro v rest hcl hlen hdel
      cases v with
      | null =>
        have hsk : skipWs (printJ Json.null ++ rest) = 'n' :: (['u', 'l', 'l'] ++ rest) :=
          skipWs_cons_not (by decide) _
        rw [parseV_eq f _ 'n' (['u', 'l', 'l'] ++ rest) hsk, if_pos rfl, eatLit_append]
        rfl
      | bool b =>
        cases b with
        | true =>
          have hsk : skipWs (printJ (Json.bool true) ++ rest) =
              't' :: (['r', 'u', 'e'] ++ rest) := skipWs_cons_not (by decide) _
          rw [parseV_eq f _ 't' (['r', 'u', 'e'] ++ rest) hsk, if_neg (by decide),
            if_pos rfl, eatLit_append]
          rfl
        | false =>
          have hsk : skipWs (printJ (Json.bool false) ++ rest) =
              'f' :: (['a', 'l', 's', 'e'] ++ rest) := skipWs_cons_not (by decide) _
          rw [parseV_eq f _ 'f' (['a', 'l', 's', 'e'] ++ rest) hsk, if_neg (by decide),
            if_neg (by decide), if_pos rfl, eatLit_append]
          rfl
      | num n =>
        obtain ⟨c, r, hpr, hcm⟩ := num_head n
        obtain ⟨hn1, hn2, hn3, hn4, hn5, hn6, hn7⟩ := numOrMinus_facts hcm
        have hws : isJsonWs c = false := by
          rcases hcm with rfl | hd
          · decide
          · exact (digit_not_ws hd).1
        have hsk : skipWs (printJ (Json.num n) ++ rest) = c :: (r ++ rest) := by
          show skipWs (intToChars n ++ rest) = _
          rw [hpr, List.cons_append]
          exact skipWs_cons_not hws _
        rw [parseV_eq f _ c (r ++ rest) hsk, if_neg hn1, if_neg hn2, if_neg hn3,
          if_neg hn4, if_neg hn5, if_neg hn6, if_pos hn7]
        have hre : c :: (r ++ rest) = intToChars n ++ rest := by
          rw [hpr, List.cons_append]
        rw [hre, parseNum_intToChars n rest hdel]
      | str s =>
        have hs := cleanJ_str_elim hcl
        have hsk : skipWs (printJ (Json.str s) ++ rest) =
            dquoteC :: ((s.data ++ [dquoteC]) ++ rest) := skipWs_cons_not (by decide) _
        rw [parseV_eq f _ dquoteC ((s.data ++ [dquoteC]) ++ rest) hsk, if_neg (by decide),
          if_neg (by decide), if_neg (by decide), if_pos rfl]
        have harr : (s.data ++ [dquoteC]) ++ rest = s.data ++ (dquoteC :: rest) := by
          simp
        rw [harr, parseStrChars_clean s.data rest hs]
        rfl
      | arr xs =>
        cases xs with
        | nil =>
          have hsk : skipWs (printJ (Json.arr .nil) ++ rest) = '[' :: (']' :: rest) :=
            skipWs_cons_not (by decide) _
          rw [parseV_eq f _ '[' (']' :: rest) hsk, if_neg (by decide), if_neg (by decide),
            if_neg (by decide), if_neg (by decide), if_pos rfl,
            skipWs_cons_not (by decide : isJsonWs ']' = false) rest]
          simp
        | cons h t =>
          obtain ⟨hch, hct⟩ := cleanL_elim hcl
          obtain ⟨c1, r1, hpr1, hwj, hwt, hbr1, hbr2, hbr3, _⟩ := printJ_head h
          have hsk : skipWs (printJ (Json.arr (.cons h t)) ++ rest) =
              '[' :: ((printJ h ++ printL t ++ [']']) ++ rest) :=
            skipWs_cons_not (by decide) _
          rw [parseV_eq f _ '[' ((printJ h ++ printL t ++ [']']) ++ rest) hsk,
            if_neg (by decide), if_neg (by decide), if_neg (by decide),
            if_neg (by decide), if_pos rfl]
          have hshape : (printJ h ++ printL t ++ [']']) ++ rest =
              c1 :: (r1 ++ (printL t ++ (']' :: rest))) := by
            rw [hpr1]
            simp [List.append_assoc]
          rw [hshape, skipWs_cons_not hwj _,
            if_neg (by simp only [List.head?_cons, Option.some_inj]; exact hbr1)]
          have harg : c1 :: (r1 ++ (printL t ++ (']' :: rest))) =
              printJ h ++ printL t ++ (']' :: rest) := by
            rw [hpr1]
            simp [List.append_assoc]
          have harith : (printJ h).length + (printL t).length + 1 < f := by
            simp only [printJ, List.length_cons, List.length_append,
              List.length_singleton] at hlen
            omega
          rw [harg, ihA h t rest hch hct harith]
          rfl
      | obj fs =>
        cases fs with
        | nil =>
          have hsk : skipWs (printJ (Json.obj .nil) ++ rest) = '{' :: ('}' :: rest) :=
            skipWs_cons_not (by decide) _
          rw [parseV_eq f _ '{' ('}' :: rest) hsk, if_neg (by decide), if_neg (by decide),
            if_neg (by decide), if_neg (by decide), if_neg (by decide), if_pos rfl,
            skipWs_cons_not (by decide : isJsonWs '}' = false) rest]
          simp
        | cons k v t =>
          have hcf : cleanF (.cons k v t) = true := hcl
          have hsk : skipWs (printJ (Json.obj (.cons k v t)) ++ rest) =
              '{' :: ((dquoteC :: k.data ++ dquoteC :: ':' :: printJ v ++ printF t ++ ['}'])
                ++ rest) := skipWs_cons_not (by decide) _
          rw [parseV_eq f _ '{'
            ((dquoteC :: k.data ++ dquoteC :: ':' :: printJ v ++ printF t ++ ['}']) ++ rest)
            hsk, if_neg (by decide), if_neg (by decide), if_neg (by decide),
            if_neg (by decide), if_neg (by decide), if_pos rfl]
          have hshape : (dquoteC :: k.data ++ dquoteC :: ':' :: printJ v ++ printF t ++ ['}'])
              ++ rest =
              dquoteC :: (k.data ++ (dquoteC :: ':' :: (printJ v ++ (printF t
                ++ ('}' :: rest))))) := by
            simp [List.append_assoc]
          rw [hshape, skipWs_cons_not (by decide) _,
            if_neg (by simp only [List.head?_cons, Option.some_inj]; decide)]
          have harg : dquoteC :: (k.data ++ (dquoteC :: ':' :: (printJ v ++ (printF t
              ++ ('}' :: rest))))) =
              dquoteC :: k.data ++ dquoteC :: ':' :: printJ v ++ printF t ++ ('}' :: rest) := by
            simp [List.append_assoc]
          have harith : (dquoteC :: k.data ++ dquoteC :: ':' :: printJ v ++ printF t).length
              < f := by
            simp only [printJ, List.length_cons, List.length_append,
              List.length_singleton] at hlen
            simp only [List.length_cons, List.length_append]
            omega
          rw [harg, ihO k v t .nil rest hcf (fun k2 _ => rfl) harith]
          rfl
    · intro h t rest hch hct hlen
      have hlp : 0 < (printJ h).length := List.length_pos.mpr (printJ_ne_nil h)
      have hdel2 : delimOk (printL t ++ (']' :: rest)) := by
        intro c hc
        cases t with
        | nil =>
          simp only [printL, List.nil_append, List.head?_cons, Option.some_inj] at hc
          subst hc
          decide
        | cons h2 t2 =>
          simp only [printL, List.cons_append, List.head?_cons, Option.some_inj] at hc
          subst hc
          decide
      have hv := ihV h (printL t ++ (']' :: rest)) hch (by omega) hdel2
      have hshape : printJ h ++ printL t ++ (']' :: rest) =
          printJ h ++ (printL t ++ (']' :: rest)) := by
        simp [List.append_assoc]
      rw [hshape, parseArrTail_eq f _ h (printL t ++ (']' :: rest)) hv]
      cases t with
      | nil =>
        simp only [printL, List.nil_append]
        rw [skipWs_cons_not (by decide : isJsonWs ']' = false) rest]
        simp
      | cons h2 t2 =>
        obtain ⟨hch2, hct2⟩ := cleanL_elim hct
        have hpl : printL (JsonList.cons h2 t2) ++ (']' :: rest) =
            ',' :: (printJ h2 ++ printL t2 ++ (']' :: rest)) := by
          simp only [printL]
          simp [List.append_assoc]
        rw [hpl, skipWs_cons_not (by decide) _, if_pos (by simp)]
        have harith2 : (printJ h2).length + (printL t2).length + 1 < f := by
          simp only [printL, List.length_cons, List.length_append] at hlen
          omega
        show Option.map _ (parseArrTail f (printJ h2 ++ printL t2 ++ (']' :: rest))) = _
        rw [ihA h2 t2 rest hch2 hct2 harith2]
        rfl
    · intro k v t acc rest hcf hdisj hlen
      obtain ⟨hk, hv, hnd, ht⟩ := cleanF_elim hcf
      have hlk : 0 < (printJ v).length := List.length_pos.mpr (printJ_ne_nil v)
      have hshape : dquoteC :: k.data ++ dquoteC :: ':' :: printJ v ++ printF t
          ++ ('}' :: rest) =
          dquoteC :: (k.data ++ (dquoteC :: (':' :: (printJ v ++ (printF t
            ++ ('}' :: rest)))))) := by
        simp [List.append_assoc]
      rw [hshape]
      have hsk : skipWs (dquoteC :: (k.data ++ (dquoteC :: (':' :: (printJ v ++ (printF t
          ++ ('}' :: rest))))))) =
          dquoteC :: (k.data ++ (dquoteC :: (':' :: (printJ v ++ (printF t
            ++ ('}' :: rest)))))) := skipWs_cons_not (by decide) _
      rw [parseObjTail_eq f acc _ dquoteC _ hsk, if_pos rfl]
      simp only [parseStrChars_clean k.data (':' :: (printJ v ++ (printF t ++ ('}' :: rest)))) hk]
      rw [skipWs_cons_not (by decide : isJsonWs ':' = false) _, if_pos (by simp)]
      have hdel3 : delimOk (printF t ++ ('}' :: rest)) := by
        intro c hc
        cases t with
        | nil =>
          simp only [printF, List.nil_append, List.head?_cons, Option.some_inj] at hc
          subst hc
          decide
        | cons k2 v2 t2 =>
          simp only [printF, List.cons_append, List.head?_cons, Option.some_inj] at hc
          subst hc
          decide
      have harith : (printJ v).length < f := by
        simp only [List.length_cons, List.length_append] at hlen
        omega
      have hpv := ihV v (printF t ++ ('}' :: rest)) hv harith hdel3
      show (match parseV f (printJ v ++ (printF t ++ ('}' :: rest))) with
        | none => none
        | some (w, r3) =>
            if (skipWs r3).head? = some ',' then
              parseObjTail f (insertF acc (String.mk k.data) w) (skipWs r3).tail
            else if (skipWs r3).head? = some '}' then
              some (insertF acc (String.mk k.data) w, (skipWs r3).tail)
            else none) = _
      simp only [hpv]
      have hacck : containsF acc k = false := by
        apply hdisj k
        rw [containsF_cons]
        simp
      have hins : insertF acc (String.mk k.data) v = appendF acc (.cons k v .nil) :=
        insertF_not_contains acc k v hacck
      cases t with
      | nil =>
        simp only [printF, List.nil_append]
        rw [skipWs_cons_not (by decide : isJsonWs '}' = false) rest,
          if_neg (by simp), if_pos (by simp), hins]
        rfl
      | cons k2 v2 t2 =>
        obtain ⟨hk2, hv2, hnd2, ht2⟩ := cleanF_elim ht
        have hpf : printF (JsonFields.cons k2 v2 t2) ++ ('}' :: rest) =
            ',' :: (dquoteC :: k2.data ++ dquoteC :: ':' :: printJ v2 ++ printF t2
              ++ ('}' :: rest)) := by
          simp only [printF]
          simp [List.append_assoc]
        rw [hpf, skipWs_cons_not (by decide) _, if_pos (by simp)]
        have hdisj2 : ∀ k3, containsF (.cons k2 v2 t2) k3 = true →
            containsF (insertF acc (String.mk k.data) v) k3 = false := by
          intro k3 hk3
          rw [hins, containsF_appendF]
          have h1 : containsF acc k3 = false := by
            apply hdisj k3
            rw [containsF_cons, hk3]
            simp
          have h2 : containsF (JsonFields.cons k v .nil) k3 = false := by
            rw [containsF_cons]
            simp only [containsF, lookupF, Option.isSome_none, Bool.or_false]
            simp only [decide_eq_false_iff_not]
            intro he
            subst he
            rw [hk3] at hnd
            cases hnd
          rw [h1, h2]
          rfl
        have harith2 : (dquoteC :: k2.data ++ dquoteC :: ':' :: printJ v2
            ++ printF t2).length < f := by
          simp only [List.length_cons, List.length_append, printF] at hlen ⊢
          omega
        show parseObjTail f (insertF acc (String.mk k.data) v)
          (dquoteC :: k2.data ++ dquoteC :: ':' :: printJ v2 ++ printF t2 ++ ('}' :: rest)) = _
        rw [ihO k2 v2 t2 (insertF acc (String.mk k.data) v) rest ht hdisj2 harith2, hins,
          appendF_assoc]
        rfl

theorem jsonParse_clean {cs : List Char} {v : Json} (h : jsonParse cs = some v) :
    cleanJ v = true := by
  unfold jsonParse at h
  cases hp : parseV (cs.length + 1) cs with
  | none =>
    simp only [hp] at h
    cases h
  | some p =>
    obtain ⟨w, r⟩ := p
    simp only [hp] at h
    by_cases hr : skipWs r = []
    · rw [if_pos hr] at h
      cases h
      exact (parse_clean _).1 cs v r hp
    · rw [if_neg hr] at h
      cases h

theorem parseJson_clean {name : String} {raw : Option (List Char)} {v : Json}
    (h : parseJson name raw = .ok v) : cleanJ v = true := by
  cases raw with
  | none =>
    simp only [parseJson] at h
    cases h
  | some cs =>
    simp only [parseJson] at h
    by_cases hcs : cs = []
    · rw [if_pos hcs] at h
      cases h
    · rw [if_neg hcs] at h
      cases hj : jsonParse (preprocess cs) with
      | none =>
        simp only [hj] at h
        cases h
      | some w =>
        simp only [hj] at h
        cases h
        exact jsonParse_clean hj

theorem jsTrim_id (l : List Char)
    (h1 : ∀ c, l.head? = some c → isTrimWs c = false)
    (h2 : ∀ c, l.getLast? = some c → isTrimWs c = false) : jsTrim l = l := by
  unfold jsTrim
  rw [dropWhile_head_not _ _ h1]
  rw [dropWhile_head_not _ _ (fun c hc => h2 c (by rwa [List.head?_reverse] at hc))]
  rw [List.reverse_reverse]

theorem preprocess_printJ (v : Json) (hcl : cleanJ v = true) (hstr : isStrVal v = false) :
    preprocess (printJ v) = printJ v := by
  obtain ⟨c, r, hpr, hw1, hw2, hb1, hb2, hb3, hq⟩ := printJ_head v
  obtain ⟨hq1, hq2⟩ := hq hstr
  unfold preprocess
  have ht : jsTrim (printJ v) = printJ v := by
    apply jsTrim_id
    · intro c2 hc2
      rw [hpr] at hc2
      rw [List.head?_cons, Option.some_inj] at hc2
      subst hc2
      exact hw2
    · exact printJ_getLast v
  have hb : stripBackslashes (printJ v) = printJ v := by
    apply List.filter_eq_self.mpr
    intro a ha
    simpa using printJ_no_bslash v hcl a ha
  rw [ht, hb]
  unfold stripQuotes
  rw [if_neg ?hc]
  case hc =>
    intro hcond
    rcases hcond with ⟨ha, _⟩ | ⟨ha, _⟩
    · rw [hpr, List.head?_cons, Option.some_inj] at ha
      exact hq1 ha
    · rw [hpr, List.head?_cons, Option.some_inj] at ha
      exact hq2 ha

theorem jsonParse_printJ (v : Json) (hcl : cleanJ v = true) :
    jsonParse (printJ v) = some v := by
  have hrt := (parse_roundtrip ((printJ v).length + 1)).1 v [] hcl (by omega)
    (fun c hc => by cases hc)
  rw [List.append_nil] at hrt
  unfold jsonParse
  simp only [hrt]
  rfl

/-- Claim C4 (amended): for every payload on which decode succeeds with a
value that is not a top-level JSON string and in which every number is an
integer of magnitude below `2 ^ 53`, re-serializing the decoded value and
decoding the result again succeeds and yields the identical structured
value.  Two exclusions are forced by the source.  A top-level string fails:
the second decode strips the serialized quote pair (see the counterexample).
Numbers outside the exact-integer double range fail in the source because
JSON numbers are IEEE-754 doubles: `1e999` decodes to `Infinity`, which
serializes as `null` and re-decodes as the null value, not `Infinity`.  The
`smallNumsJ` bound confines the statement to the range where the integer
number model coincides with the doubles of the source (see `Json`); within
the model's integer fragment the bound is not itself needed by the proof,
so the hypothesis is anonymous. -/
theorem c4_roundtrip_amended (name name2 : String) (raw : Option (List Char)) (v : Json)
    (hdec : parseJson name raw = .ok v) (hnstr : isStrVal v = false)
    (_hnum : smallNumsJ v = true) :
    parseJson name2 (some (printJ v)) = .ok v := by
  have hcl : cleanJ v = true := parseJson_clean hdec
  simp only [parseJson]
  rw [if_neg (printJ_ne_nil v), preprocess_printJ v hcl hnstr, jsonParse_printJ v hcl]

/-- Witness for `c4_roundtrip_amended`: the basic-credentials payload
decodes to an object (not a string, numbers vacuously small), and decoding
its re-serialization returns the identical value. -/
theorem c4_roundtrip_amended_witness :
    (parseJson "s" (some basicPayloadChars) = .ok basicJson ∧
      isStrVal basicJson = false ∧ smallNumsJ basicJson = true) ∧
    parseJson "s2" (some (printJ basicJson)) = .ok basicJson :=
  ⟨⟨by decide, by decide, by decide⟩,
   c4_roundtrip_amended "s" "s2" (some basicPayloadChars) basicJson
     (by decide) (by decide) (by decide)⟩
